import Mathlib

/-!
Verification development for the PM_ML ingestion-and-query engine
(`pm_ingest.py` / `pm_query.py`), as a shallow embedding.

Cell values are modelled by `Val` (missing / string / integer / timestamp),
rows by association lists from column names to values, data frames by lists
of rows, and parquet segments by a column list plus a row list.  Timestamps
are modelled as integers under a strictly monotone encoding of
(year, month, day, hour, minute, second); floating point KPI values are
modelled as integers (the claims under study only depend on the numeric
coercion being applied identically, never on float arithmetic).
-/

namespace PM

/-- Python whitespace test used by `str.strip` (common ASCII whitespace). -/
def isWS (c : Char) : Bool :=
  c = ' ' || c = '\t' || c = '\n' || c = '\r'

/-- `str.strip` on a character list: drop whitespace at both ends. -/
def trimChars (l : List Char) : List Char :=
  ((l.dropWhile isWS).reverse.dropWhile isWS).reverse

/-- Lower-case a single ASCII character (model of `str.lower` per char). -/
def lowChar (c : Char) : Char :=
  if 'A' ≤ c ∧ c ≤ 'Z' then Char.ofNat (c.toNat + 32) else c

/-- `str.strip` on strings. -/
def pyStrip (s : String) : String := ⟨trimChars s.data⟩

/-- `str.lower` on strings. -/
def pyLower (s : String) : String := ⟨s.data.map lowChar⟩

/-- Does `pat` occur at the head of `l`? -/
def headMatch : List Char → List Char → Bool
  | [], _ => true
  | _ :: _, [] => false
  | a :: as, b :: bs => a = b && headMatch as bs

/-- Does `pat` occur somewhere inside `l`?  (Substring containment, used to
model both SQL `LIKE '%pat%'` and Python `in` / `str.contains` on a plain
pattern; regex metacharacters and SQL wildcards are not exercised by the
claims and are not modelled.) -/
def infixMatch (pat : List Char) : List Char → Bool
  | [] => pat.isEmpty
  | b :: bs => headMatch pat (b :: bs) || infixMatch pat bs

/-- Substring containment on strings. -/
def strContains (hay pat : String) : Bool := infixMatch pat.data hay.data

/-- Digit character for `n < 10`. -/
def digitChar (n : Nat) : Char := Char.ofNat (48 + n)

/-- Decimal digits of a natural number (fuelled so that it is structurally
recursive and kernel-reducible). -/
def natDigitsAux : Nat → Nat → List Char
  | 0, _ => []
  | fuel + 1, n =>
    if n < 10 then [digitChar n]
    else natDigitsAux fuel (n / 10) ++ [digitChar (n % 10)]

/-- Decimal string of a natural number. -/
def natToStr (n : Nat) : String := ⟨natDigitsAux (n + 1) n⟩

/-- Zero-pad to two digits. -/
def pad2 (n : Nat) : String := if n < 10 then "0" ++ natToStr n else natToStr n

/-- Zero-pad to four digits. -/
def pad4 (n : Nat) : String :=
  if n < 10 then "000" ++ natToStr n
  else if n < 100 then "00" ++ natToStr n
  else if n < 1000 then "0" ++ natToStr n
  else natToStr n

/-- Split a character list on any separator from `seps`; adjacent separators
yield empty groups. -/
def splitChars (seps : List Char) : List Char → List (List Char)
  | [] => [[]]
  | c :: cs =>
    match splitChars seps cs with
    | [] => [[]]
    | g :: gs => if seps.contains c then [] :: g :: gs else (c :: g) :: gs

/-- Parse a non-empty all-digit character list as a natural number. -/
def parseNatChars (l : List Char) : Option Nat :=
  if l.isEmpty then none
  else if l.all (·.isDigit) then
    some (l.foldl (fun acc c => acc * 10 + (c.toNat - 48)) 0)
  else none

/-- A cell value: missing (NaN / NULL / pd.NA), a string, an integer, or a
parsed timestamp. -/
inductive Val
  | na
  | str (s : String)
  | int (n : Int)
  | time (t : Int)
deriving DecidableEq, Repr

/-- A row: an association list from column names to cell values. -/
abbrev RowT := List (String × Val)

/-- First-binding lookup in a row (models column access on a data frame row). -/
def alookup (c : String) : RowT → Option Val
  | [] => none
  | (k, v) :: r => if k = c then some v else alookup c r

/-- Boolean membership of a string in a list of column names. -/
def memb (c : String) (l : List String) : Bool :=
  l.any (fun d => d = c)

theorem memb_iff {c : String} {l : List String} : memb c l = true ↔ c ∈ l := by
  simp only [memb, List.any_eq_true, decide_eq_true_eq]
  exact ⟨fun ⟨d, hd, he⟩ => he ▸ hd, fun h => ⟨c, h, rfl⟩⟩

/-- Python `str(x)` on a cell value, as produced by `astype(str)` /
`str(s)`: `NaN` prints as `"nan"`, strings are unchanged, integers print in
decimal.  Timestamps print through their encoding (their exact text never
matters to the claims). -/
def pyStr : Val → String
  | .na => "nan"
  | .str s => s
  | .int n => if n < 0 then "-" ++ natToStr (-n).toNat else natToStr n.toNat
  | .time t => natToStr t.toNat

/-- `pd.isna` on a cell value. -/
def pyIsNa : Val → Bool
  | .na => true
  | _ => false

/-! ### Timestamp encoding

`encodeTs y m d h mi s = ((((y*13 + m)*32 + d)*24 + h)*60 + mi)*60 + s`,
a strictly monotone injection of calendar fields (with `m < 13`, `d < 32`,
`h < 24`, `mi < 60`, `s < 60`) into the integers; only ordering and equality
of timestamps are ever used, so the epoch offset is irrelevant. -/

/-- Day-resolution code of a date. -/
def dateCode (y m d : Nat) : Nat := (y * 13 + m) * 32 + d

/-- Full timestamp encoding. -/
def encodeTs (y m d h mi s : Nat) : Int :=
  ((dateCode y m d : Int)) * 86400 + (h * 3600 + mi * 60 + s : Nat)

/-- Validate and encode a (year, month, day) triple at day resolution. -/
def mkDate (y m d : Nat) : Option Nat :=
  if 1 ≤ m ∧ m ≤ 12 ∧ 1 ≤ d ∧ d ≤ 31 then some (dateCode y m d) else none

/-- Model of the date part accepted by `pandas.to_datetime` (via dateutil):
three numeric fields split on `-` or `.`; a four-digit leading field is a
year (year-month-day order), otherwise the four-digit year must come last
and, with pandas' default `dayfirst=False`, a leading field `≤ 12` is the
month.  Mixed cases outside these shapes are not produced by this pipeline. -/
def parseDateChars (l : List Char) : Option Nat :=
  match splitChars ['-', '.'] l with
  | [a, b, c] =>
    match parseNatChars a, parseNatChars b, parseNatChars c with
    | some x, some y, some z =>
      if a.length = 4 then mkDate x y z
      else if c.length = 4 then
        if x ≤ 12 then mkDate z x y else mkDate z y x
      else none
    | _, _, _ => none
  | _ => none

/-- Model of the clock part accepted by `pandas.to_datetime` (via dateutil):
one to three colon-separated numeric fields.  A dotted clock such as
`00.15.30` does NOT parse: dateutil's lexer splits `00.15.30` into the
numeric tokens `00`, `15`, `30` separated by `.`, its parser then treats
`.` as a *date* separator and accumulates more than three date components,
and raises.  Here the dots simply make the single colon-field non-numeric,
reproducing that failure. -/
def parseClockChars (l : List Char) : Option Nat :=
  match splitChars [':'] l with
  | [h] => (parseNatChars h).bind fun hh => if hh < 24 then some (hh * 3600) else none
  | [h, m] =>
    match parseNatChars h, parseNatChars m with
    | some hh, some mm => if hh < 24 ∧ mm < 60 then some (hh * 3600 + mm * 60) else none
    | _, _ => none
  | [h, m, s] =>
    match parseNatChars h, parseNatChars m, parseNatChars s with
    | some hh, some mm, some ss =>
      if hh < 24 ∧ mm < 60 ∧ ss < 60 then some (hh * 3600 + mm * 60 + ss) else none
    | _, _, _ => none
  | _ => none

/-- Model of `pd.to_datetime(s, errors="coerce")` on a string, for the string
shapes this pipeline produces: an optional-whitespace-trimmed
`<date>[ <clock>]`.  Returns `none` (i.e. `NaT`) when either part fails. -/
def pdParseDatetime (s : String) : Option Int :=
  match (splitChars [' '] (trimChars s.data)).filter (fun g => !g.isEmpty) with
  | [d] => (parseDateChars d).map fun dc => (dc : Int) * 86400
  | [d, c] =>
    match parseDateChars d, parseClockChars c with
    | some dc, some secs => some ((dc : Int) * 86400 + (secs : Int))
    | _, _ => none
  | _ => none

/-- `strftime('%Y-%m-%d')` on an encoded timestamp. -/
def fmtDate (t : Int) : String :=
  let dc := t.toNat / 86400
  pad4 (dc / 416) ++ "-" ++ pad2 (dc / 32 % 13) ++ "-" ++ pad2 (dc % 32)

/-! ### `pm_ingest.py` -/

/-- Skip past the first occurrence of `rp`, returning the remainder, or
`none` when `rp` does not occur (the closing delimiter is missing). -/
def dropThroughChar (rp : Char) : List Char → Option (List Char)
  | [] => none
  | c :: cs => if c = rp then some cs else dropThroughChar rp cs

/-- `re.sub(r'\(.*?\)', '', s)`-style removal of delimited spans: scanning
left to right, each opening delimiter with a later closing delimiter is
removed together with everything up to the nearest closing delimiter
(non-greedy); an opener without a closer is kept.  Fuelled so that the
definition is structurally recursive and kernel-reducible; the fuel is the
input length, which each step strictly consumes. -/
def stripEnclAux (lp rp : Char) : Nat → List Char → List Char
  | 0, l => l
  | _ + 1, [] => []
  | fuel + 1, c :: cs =>
    if c = lp then
      match dropThroughChar rp cs with
      | some rest => stripEnclAux lp rp fuel rest
      | none => c :: stripEnclAux lp rp fuel cs
    else c :: stripEnclAux lp rp fuel cs

/-- Remove all `lp ... rp` spans. -/
def stripEncl (lp rp : Char) (l : List Char) : List Char :=
  stripEnclAux lp rp l.length l

/-- `re.sub(r'(\d)\.(\d)\.(\d)', r'\1:\2:\3', s)`: non-overlapping,
left-to-right rewriting of SINGLE-digit dot triples `D.D.D` into `D:D:D`.
Note the pattern matches exactly one digit per group, so two-digit clock
components such as `00.15.30` contain no match.  Fuelled as above. -/
def subTriplesAux : Nat → List Char → List Char
  | 0, l => l
  | _ + 1, [] => []
  | fuel + 1, d1 :: rest1 =>
    match rest1 with
    | '.' :: d2 :: '.' :: d3 :: rest =>
      if d1.isDigit && d2.isDigit && d3.isDigit then
        d1 :: ':' :: d2 :: ':' :: d3 :: subTriplesAux fuel rest
      else
        d1 :: subTriplesAux fuel rest1
    | _ => d1 :: subTriplesAux fuel rest1

/-- Rewrite all single-digit dot triples. -/
def subTriples (l : List Char) : List Char := subTriplesAux l.length l

/-- `clean_time` from `pm_ingest.py`, on strings: strip `(...)` spans, strip
`[...]` spans, replace `/` by `-`, rewrite single-digit `D.D.D` triples to
`D:D:D`, and trim surrounding whitespace. -/
def clean_time (s : String) : String :=
  let a := stripEncl '(' ')' s.data
  let b := stripEncl '[' ']' a
  let c := b.map (fun ch => if ch = '/' then '-' else ch)
  let d := subTriples c
  ⟨trimChars d⟩

/-- `clean_time` lifted to cells: missing values are returned unchanged
(`if pd.isna(s): return s`), anything else is stringified and cleaned. -/
def cleanTimeVal (v : Val) : Val :=
  match v with
  | .na => .na
  | v => .str (clean_time (pyStr v))

/-- `pd.to_datetime(x, errors="coerce")` on a cell: an already-parsed
timestamp stays a timestamp, a string is parsed by `pdParseDatetime`, an
integer is interpreted as an epoch offset, a missing value stays missing. -/
def toDatetimeVal (v : Val) : Val :=
  match v with
  | .time t => .time t
  | .str s => match pdParseDatetime s with
    | some t => .time t
    | none => .na
  | .int n => .time n
  | .na => .na

/-- `pd.to_numeric(x, errors="coerce")` on a cell: integers stay, numeric
strings parse (optionally signed decimal; the claims never depend on float
values), timestamps map to their underlying count, everything else becomes
missing. -/
def toNumericVal (v : Val) : Val :=
  match v with
  | .int n => .int n
  | .time t => .int t
  | .na => .na
  | .str s =>
    match trimChars s.data with
    | '-' :: rest => match parseNatChars rest with
      | some n => .int (-(n : Int))
      | none => .na
    | l => match parseNatChars l with
      | some n => .int (n : Int)
      | none => .na

/-- `chunk.replace({'NS': pd.NA, '': pd.NA, 'NA': pd.NA})` on one cell:
cells exactly equal to one of the literal tokens become missing. -/
def replaceVal (v : Val) : Val :=
  match v with
  | .str s => if s = "NS" ∨ s = "" ∨ s = "NA" then .na else .str s
  | v => v

/-- One in-memory CSV chunk: column labels plus rows binding them. -/
structure Chunk where
  cols : List String
  rows : List RowT
deriving DecidableEq, Repr

/-- Apply `f` to every binding of column `c` in a row (models assignment to
an existing data-frame column). -/
def mapAt (c : String) (f : Val → Val) (r : RowT) : RowT :=
  r.map fun p => if p.1 = c then (p.1, f p.2) else p

/-- Assign column `c` in a row: overwrite in place when present, append a
new binding otherwise (models `df[c] = value`). -/
def setCol (c : String) (v : Val) (r : RowT) : RowT :=
  if r.any (fun p => p.1 = c) then mapAt c (fun _ => v) r else r ++ [(c, v)]

/-- Line 99: `chunk.columns = [str(c).strip() for c in chunk.columns]`. -/
def normHeader (c : Chunk) : Chunk :=
  { cols := c.cols.map pyStrip
    rows := c.rows.map fun r => r.map fun p => (pyStrip p.1, p.2) }

/-- Lines 102–106: first column whose stripped, lower-cased label is
`"time"`. -/
def findTimeCol (cols : List String) : Option String :=
  cols.find? fun c => pyLower (pyStrip c) == "time"

/-- Group key for `chunk.groupby(['NE', '__date'])`: present only when both
key cells hold (non-missing) strings; pandas' default `dropna=True` drops
rows whose key is missing. -/
def groupKey (r : RowT) : Option (String × String) :=
  match alookup "NE" r, alookup "__date" r with
  | some (.str n), some (.str d) => some (n, d)
  | _, _ => none

/-- Lines 109–110: clean and re-parse the time cell of a row. -/
def parseTimeRow (tc : String) (r : RowT) : RowT :=
  mapAt tc (fun v => toDatetimeVal (cleanTimeVal v)) r

/-- Line 111, the `dropna(subset=[time_col])` row test. -/
def hasParsedTime (tc : String) (r : RowT) : Bool :=
  match alookup tc r with
  | some (.time _) => true
  | _ => false

/-- Lines 115–119: stringify `NE` when the column exists, else assign the
literal sentinel `'UNKNOWN_NE'`. -/
def fixNERow (hasNE : Bool) (r : RowT) : RowT :=
  if hasNE then mapAt "NE" (fun v => .str (pyStr v)) r
  else setCol "NE" (.str "UNKNOWN_NE") r

/-- Line 122: derive the `__date` partition string from the parsed time. -/
def addDateRow (tc : String) (r : RowT) : RowT :=
  setCol "__date" (.str (fmtDate (match alookup tc r with
    | some (.time t) => t
    | _ => 0))) r

/-- Line 125: replace the missing-value tokens in every cell of a row. -/
def replaceRow (r : RowT) : RowT :=
  r.map fun p => (p.1, replaceVal p.2)

/-- Lines 97–147 of `pm_ingest.py`, for one chunk: normalize headers, find
the time column (discarding the chunk when absent), clean and parse times,
drop rows with unparseable timestamps, fix the `NE` column, derive
`__date`, replace the missing-value tokens, and group by `(NE, __date)`;
each group becomes one written parquet segment.  pandas sorts group keys;
the keys are listed here in first-appearance order, which only permutes the
order in which segments are written and is observed by no claim. -/
def processChunk (c0 : Chunk) : List ((String × String) × List RowT) :=
  let c := normHeader c0
  match findTimeCol c.cols with
  | none => []
  | some tc =>
    let rows2 := (c.rows.map (parseTimeRow tc)).filter (hasParsedTime tc)
    if rows2.isEmpty then []
    else
      let rows5 := ((rows2.map (fixNERow (memb "NE" c.cols))).map
        (addDateRow tc)).map replaceRow
      let keys := (rows5.filterMap groupKey).dedup
      keys.map fun k => (k, rows5.filter fun r => decide (groupKey r = some k))

/-- `ingest_folder`, restricted to what the claims observe: the multiset of
written segments is the concatenation of the per-chunk groups over every
chunk of every readable source file (whole-file read failures skip a file
and are not modelled; progress reporting and parquet write retries have no
bearing on the claims). -/
def ingest_folder (chunks : List Chunk) : List ((String × String) × List RowT) :=
  chunks.flatMap processChunk

/-! ### `pm_query.py` -/

/-- One parquet segment file: whether it can be read at all (a corrupt or
unreadable file raises on open), its column list, and its rows. -/
structure Segment where
  readable : Bool
  cols : List String
  rows : List RowT
deriving DecidableEq

/-- The partitioned store: partitions addressable by element id `NE`. -/
structure Store where
  parts : List (String × List Segment)
deriving DecidableEq

/-- `_glob_parquet_paths(root, ne)`: all segment files under `NE=<ne>`, or
the empty list when the partition directory does not exist. -/
def glob_parquet_paths (st : Store) (ne : String) : List Segment :=
  match st.parts.lookup ne with
  | some segs => segs
  | none => []

/-- The reserved projection columns always requested alongside the KPIs. -/
def reserved : List String := ["Time", "NE", "TP"]

/-- Project a row onto `want`, in `want` order, keeping only columns the row
binds (models `df[want]` and the SQL projection). -/
def projRow (want : List String) (r : RowT) : RowT :=
  want.filterMap fun c => (alookup c r).map fun v => (c, v)

/-- Python truthiness of the optional `tp_contains` argument
(`if tp_contains:`): present and non-empty. -/
def truthy : Option String → Bool
  | none => false
  | some s => !(s == "")

/-- The time key a row is sorted and range-filtered on (rows reaching the
sort have a parsed `Time`; the default is never observed by the claims). -/
def rowTime (r : RowT) : Int :=
  match alookup "Time" r with
  | some (.time t) => t
  | _ => 0

/-- The `WHERE` clause built on lines 64–72: conjunction, in source order, of
`Time >= start` (when given), `Time <= end` (when given) and
`TP LIKE '%tp%'` (case-sensitive, when given and non-empty).  SQL
comparisons and `LIKE` on a NULL operand are not true, so rows with a
missing `Time`/`TP` fail any present filter. -/
def sqlPass (start end_ : Option Int) (tpc : Option String) (r : RowT) : Bool :=
  (match start with
    | some s => match alookup "Time" r with
      | some (.time t) => decide (s ≤ t)
      | _ => false
    | none => true) &&
  (match end_ with
    | some e => match alookup "Time" r with
      | some (.time t) => decide (t ≤ e)
      | _ => false
    | none => true) &&
  (if truthy tpc then
    match alookup "TP" r with
    | some (.str v) => strContains v (tpc.getD "")
    | _ => false
  else true)

/-- `df["Time"] = pd.to_datetime(df["Time"], errors="coerce")`. -/
def coerceTimeRow (r : RowT) : RowT := mapAt "Time" toDatetimeVal r

/-- `dropna(subset=["Time"])` row test. -/
def rowHasTime (r : RowT) : Bool :=
  match alookup "Time" r with
  | some (.time _) => true
  | _ => false

/-- The per-column numeric coercion loop (`for k in kpis: if k in columns:
df[k] = pd.to_numeric(df[k], errors="coerce")`): after `set_index("Time")`
the `Time` column lives in the index and is never coerced. -/
def coerceKpisRow (kpis : List String) (r : RowT) : RowT :=
  r.map fun p => if !(p.1 = "Time") && memb p.1 kpis then (p.1, toNumericVal p.2) else p

/-- Stable ascending insertion by time key: an element is placed after all
existing elements with a key `≤` its own. -/
def insertRow (r : RowT) : List RowT → List RowT
  | [] => [r]
  | x :: xs => if rowTime x ≤ rowTime r then x :: insertRow r xs else r :: x :: xs

/-- Deterministic sort by ascending time key, modelling both the engine's
`ORDER BY Time ASC` and pandas' `sort_index()`; tie order among equal keys
is unspecified by both engines and is fixed here to one stable order. -/
def sortRows (l : List RowT) : List RowT := l.foldr insertRow []

/-- `df.tail(n)`: the last `n` rows for `n ≥ 0`; for negative `n`, all rows
except the first `|n|` (pandas semantics). -/
def pdTail (n : Int) (l : List RowT) : List RowT :=
  if 0 ≤ n then l.drop (l.length - n.toNat) else l.drop (-n).toNat

/-- Line 92–93: `if max_rows and max_rows > 0 and shape[0] > max_rows:
tail(max_rows)`. -/
def accTrim (m : Int) (l : List RowT) : List RowT :=
  if (!(m = 0)) && decide (0 < m) && decide (m < (l.length : Int)) then pdTail m l else l

/-- Line 123–124: `if max_rows and shape[0] > max_rows: tail(max_rows)`
(note: no `max_rows > 0` guard on this path). -/
def fbTrim (m : Int) (l : List RowT) : List RowT :=
  if (!(m = 0)) && decide (m < (l.length : Int)) then pdTail m l else l

/-- Query errors, kept distinguishable: the two `ValueError`s raised by the
argument validation on lines 44–48, the engine's binder error when a
projected column is absent from a scanned file's schema, and the engine's
failure on an unreadable file. -/
inductive QErr
  | invalidArgument (msg : String)
  | binderError
  | readError
deriving DecidableEq

/-- Lines 56–94, the accelerated (DuckDB) path: one declarative
scan-project-filter-sort over all located segments.  `parquet_scan` fails on
an unreadable file, and binding `SELECT` columns fails when a projected
column is absent from a scanned segment's schema; both propagate out of
`query_data` uncaught.  The result frame then gets `Time` re-parsed and
indexed and the KPI columns coerced to numeric, and is trimmed to the last
`max_rows` rows. -/
def acceleratedQuery (segs : List Segment) (kpis : List String)
    (start end_ : Option Int) (tpc : Option String) (maxRows : Int) :
    Except QErr (List RowT) :=
  let cols := reserved ++ kpis
  if segs.any (fun s => !s.readable) then .error .readError
  else if cols.any (fun c => segs.any fun s => !(memb c s.cols)) then .error .binderError
  else
    let rows0 := (segs.flatMap (·.rows)).map (projRow cols)
    let rows1 := rows0.filter (sqlPass start end_ tpc)
    let rows2 := sortRows rows1
    if rows2.isEmpty then .ok []
    else
      let rows3 := (rows2.map coerceTimeRow).filter rowHasTime
      let rows4 := rows3.map (coerceKpisRow kpis)
      .ok (accTrim maxRows rows4)

/-- The `TP` substring filter on the fallback path (line 108–109):
`df["TP"].astype(str).str.contains(tp, na=False, case=False)` —
case-INSENSITIVE, and a missing `TP` has already been stringified to
`"nan"` by `astype(str)`. -/
def fbTpPass (sub : String) (r : RowT) : Bool :=
  strContains (pyLower (pyStr ((alookup "TP" r).getD .na))) (pyLower sub)

/-- Lines 98–116, the per-segment body of the fallback loop: any exception
(unreadable file, or a `KeyError` from touching a missing `Time`/`TP`
column) is swallowed by `except Exception: continue`, dropping the segment;
otherwise project onto the wanted columns that exist, parse and index
`Time`, drop unparseable times, and apply the `tp`/`start`/`end` filters in
that order. -/
def perSegment (kpis : List String) (start end_ : Option Int)
    (tpc : Option String) (s : Segment) : Option (List RowT) :=
  if !s.readable then none
  else
    let want := (reserved ++ kpis).filter fun c => memb c s.cols
    if want.isEmpty then none
    else if !(memb "Time" want) then none
    else if truthy tpc && !(memb "TP" want) then none
    else
      let df0 := s.rows.map (projRow want)
      let df1 := (df0.map coerceTimeRow).filter rowHasTime
      let df2 := if truthy tpc then df1.filter (fbTpPass (tpc.getD "")) else df1
      let df3 := match start with
        | some st => df2.filter fun r => decide (st ≤ rowTime r)
        | none => df2
      let df4 := match end_ with
        | some en => df3.filter fun r => decide (rowTime r ≤ en)
        | none => df3
      some df4

/-- Lines 96–125, the fallback (per-file pandas) path: collect the surviving
per-segment frames, concatenate, sort once by the time index, coerce KPI
columns, and trim to the last `max_rows` rows.  This path never raises. -/
def fallbackQuery (segs : List Segment) (kpis : List String)
    (start end_ : Option Int) (tpc : Option String) (maxRows : Int) : List RowT :=
  let frames := segs.filterMap (perSegment kpis start end_ tpc)
  if frames.isEmpty then []
  else
    let combined := sortRows frames.flatten
    let combined2 := combined.map (coerceKpisRow kpis)
    fbTrim maxRows combined2

/-- `query_data` from `pm_query.py`: validate arguments (lines 44–48),
locate the partition's segments (51–53, empty table when none), then run
whichever execution strategy matches the availability of the accelerated
engine.  `start`/`end` are modelled already parsed (`pd.to_datetime` of the
caller's date-likes), `max_rows` keeps Python's integer truthiness. -/
def query_data (duckdbAvailable : Bool) (st : Store)
    (ne : Option String) (kpis : Option (List String))
    (start end_ : Option Int) (tpc : Option String) (maxRows : Int) :
    Except QErr (List RowT) :=
  match ne with
  | none => .error (.invalidArgument "NE must be specified for partitioned store queries")
  | some n =>
    match kpis with
    | none => .error (.invalidArgument "At least one KPI required")
    | some ks =>
      if ks.length = 0 then .error (.invalidArgument "At least one KPI required")
      else
        let paths := glob_parquet_paths st n
        if paths.isEmpty then .ok []
        else if duckdbAvailable then acceleratedQuery paths ks start end_ tpc maxRows
        else .ok (fallbackQuery paths ks start end_ tpc maxRows)

/-! ### Association-list and list lemmas -/

theorem alookup_cons (k : String) (v : Val) (r : RowT) (c : String) :
    alookup c ((k, v) :: r) = if k = c then some v else alookup c r := rfl

theorem memb_cons (c d : String) (t : List String) :
    memb c (d :: t) = (decide (d = c) || memb c t) := rfl

theorem memb_cons_of_ne {c d : String} (h : ¬ d = c) (t : List String) :
    memb c (d :: t) = memb c t := by
  rw [memb_cons, decide_eq_false h, Bool.false_or]

theorem mapAt_cons (c2 : String) (f : Val → Val) (k : String) (v : Val) (r : RowT) :
    mapAt c2 f ((k, v) :: r) =
      (if k = c2 then (k, f v) else (k, v)) :: mapAt c2 f r := rfl

theorem alookup_projRow (want : List String) (r : RowT) (c : String) :
    alookup c (projRow want r) = if memb c want then alookup c r else none := by
  induction want with
  | nil => simp [projRow, alookup, memb]
  | cons d t ih =>
    rw [projRow, List.filterMap_cons]
    rw [projRow] at ih
    cases hv : alookup d r with
    | none =>
      rw [Option.map_none', ih]
      by_cases hdc : d = c
      · subst hdc
        by_cases hm : memb d t = true
        · rw [if_pos hm, if_pos]
          rw [memb_cons]
          simp
        · rw [if_neg hm, hv, if_pos]
          rw [memb_cons]
          simp
      · rw [memb_cons_of_ne hdc]
    | some v =>
      rw [Option.map_some', alookup_cons]
      by_cases hdc : d = c
      · subst hdc
        rw [if_pos rfl, if_pos, hv]
        rw [memb_cons]
        simp
      · rw [if_neg hdc, ih, memb_cons_of_ne hdc]

theorem mem_projRow {want : List String} {r : RowT} {p : String × Val}
    (h : p ∈ projRow want r) : p.1 ∈ want ∧ alookup p.1 r = some p.2 := by
  rcases List.mem_filterMap.mp h with ⟨c, hc, he⟩
  cases hv : alookup c r with
  | none => rw [hv] at he; simp at he
  | some v =>
    rw [hv] at he
    simp only [Option.map_some', Option.some.injEq] at he
    subst he
    exact ⟨hc, hv⟩

theorem alookup_mapAt (c c2 : String) (f : Val → Val) (r : RowT) :
    alookup c (mapAt c2 f r) =
      if c2 = c then (alookup c r).map f else alookup c r := by
  induction r with
  | nil =>
    show (none : Option Val) = if c2 = c then Option.map f none else none
    by_cases h : c2 = c
    · rw [if_pos h, Option.map_none']
    · rw [if_neg h]
  | cons p t ih =>
    obtain ⟨k, v⟩ := p
    rw [mapAt_cons]
    by_cases hk2 : k = c2
    · rw [if_pos hk2, alookup_cons, alookup_cons]
      by_cases hkc : k = c
      · rw [if_pos hkc, if_pos (hk2.symm.trans hkc), if_pos hkc, Option.map_some']
      · rw [if_neg hkc, if_neg hkc]
        exact ih
    · rw [if_neg hk2, alookup_cons, alookup_cons]
      by_cases hkc : k = c
      · have hc2 : ¬ c2 = c := fun h => hk2 (hkc.trans h.symm)
        rw [if_neg hc2, if_pos hkc, if_pos hkc]
      · rw [if_neg hkc, if_neg hkc]
        exact ih

theorem mapAt_eq_self {c : String} {f : Val → Val} {r : RowT}
    (h : ∀ p ∈ r, p.1 = c → f p.2 = p.2) : mapAt c f r = r := by
  induction r with
  | nil => rfl
  | cons p t ih =>
    rw [mapAt, List.map_cons]
    have ht : mapAt c f t = t := ih fun q hq => h q (List.mem_cons_of_mem p hq)
    rw [mapAt] at ht
    rw [ht]
    by_cases hp : p.1 = c
    · rw [if_pos hp, h p (List.mem_cons_self p t) hp]
    · rw [if_neg hp]

theorem alookup_append_left_none {c : String} {r1 : RowT} (r2 : RowT)
    (h : alookup c r1 = none) : alookup c (r1 ++ r2) = alookup c r2 := by
  induction r1 with
  | nil => rfl
  | cons q t ih =>
    obtain ⟨k, v⟩ := q
    rw [alookup_cons] at h
    rw [List.cons_append, alookup_cons]
    by_cases hk : k = c
    · rw [if_pos hk] at h
      exact absurd h (by simp)
    · rw [if_neg hk] at h
      rw [if_neg hk]
      exact ih h

theorem alookup_none_of_not_any {c : String} {r : RowT}
    (h : ¬ r.any (fun p => p.1 = c) = true) : alookup c r = none := by
  induction r with
  | nil => rfl
  | cons q t ih =>
    obtain ⟨k, v⟩ := q
    rw [List.any_cons, Bool.or_eq_true] at h
    push_neg at h
    rw [alookup_cons, if_neg (by simpa using h.1)]
    exact ih h.2

theorem alookup_setCol_same (c : String) (v : Val) (r : RowT) :
    alookup c (setCol c v r) = some v := by
  rw [setCol]
  by_cases h : r.any (fun p => p.1 = c) = true
  · rw [if_pos h, alookup_mapAt, if_pos rfl]
    rcases List.any_eq_true.mp h with ⟨p, hp, he⟩
    have he' : p.1 = c := of_decide_eq_true he
    clear h he
    induction r with
    | nil => simp at hp
    | cons q t ih =>
      obtain ⟨k, w⟩ := q
      rw [alookup_cons]
      by_cases hk : k = c
      · rw [if_pos hk, Option.map_some']
      · rw [if_neg hk]
        rcases List.mem_cons.mp hp with hq | hq
        · exact absurd ((congrArg Prod.fst hq).symm.trans he') hk
        · exact ih hq
  · rw [if_neg h, alookup_append_left_none _ (alookup_none_of_not_any h),
      alookup_cons, if_pos rfl]

theorem alookup_append_single_other {c c2 : String} (h : ¬ c2 = c) (v : Val)
    (r : RowT) : alookup c (r ++ [(c2, v)]) = alookup c r := by
  induction r with
  | nil =>
    rw [List.nil_append]
    show (if c2 = c then some v else none) = none
    rw [if_neg h]
  | cons q t ih =>
    obtain ⟨k, w⟩ := q
    rw [List.cons_append, alookup_cons, alookup_cons]
    by_cases hk : k = c
    · rw [if_pos hk, if_pos hk]
    · rw [if_neg hk, if_neg hk]
      exact ih

theorem alookup_setCol_other {c c2 : String} (h : ¬ c2 = c) (v : Val) (r : RowT) :
    alookup c (setCol c2 v r) = alookup c r := by
  rw [setCol]
  by_cases ha : r.any (fun p => p.1 = c2) = true
  · rw [if_pos ha, alookup_mapAt, if_neg h]
  · rw [if_neg ha, alookup_append_single_other h]

theorem alookup_mapVals (c : String) (f : Val → Val) (r : RowT) :
    alookup c (r.map fun p => (p.1, f p.2)) = (alookup c r).map f := by
  induction r with
  | nil => rfl
  | cons q t ih =>
    obtain ⟨k, v⟩ := q
    rw [List.map_cons]
    show alookup c ((k, f v) :: _) = _
    rw [alookup_cons, alookup_cons]
    by_cases hk : k = c
    · rw [if_pos hk, if_pos hk]
      rfl
    · rw [if_neg hk, if_neg hk, ih]

theorem mem_insertRow {x r : RowT} {l : List RowT} :
    x ∈ insertRow r l ↔ x = r ∨ x ∈ l := by
  induction l with
  | nil => simp [insertRow]
  | cons y t ih =>
    rw [insertRow]
    by_cases h : rowTime y ≤ rowTime r
    · rw [if_pos h]
      simp only [List.mem_cons, ih]
      tauto
    · rw [if_neg h]
      simp only [List.mem_cons]

theorem mem_sortRows {x : RowT} {l : List RowT} : x ∈ sortRows l ↔ x ∈ l := by
  induction l with
  | nil => simp [sortRows]
  | cons y t ih =>
    rw [sortRows, List.foldr_cons]
    rw [sortRows] at ih
    rw [mem_insertRow, ih]
    simp [List.mem_cons]

theorem filter_all_true {α : Type} {p : α → Bool} {l : List α}
    (h : ∀ x ∈ l, p x = true) : l.filter p = l := by
  induction l with
  | nil => rfl
  | cons a t ih =>
    rw [List.filter_cons, if_pos (h a (List.mem_cons_self a t))]
    rw [ih fun x hx => h x (List.mem_cons_of_mem a hx)]

theorem map_id_of {α : Type} {f : α → α} {l : List α}
    (h : ∀ x ∈ l, f x = x) : l.map f = l := by
  induction l with
  | nil => rfl
  | cons a t ih =>
    rw [List.map_cons, h a (List.mem_cons_self a t),
      ih fun x hx => h x (List.mem_cons_of_mem a hx)]

theorem filterMap_eq_map_of {α β : Type} {f : α → Option β} {g : α → β} {l : List α}
    (h : ∀ x ∈ l, f x = some (g x)) : l.filterMap f = l.map g := by
  induction l with
  | nil => rfl
  | cons a t ih =>
    rw [List.filterMap_cons, h a (List.mem_cons_self a t), List.map_cons,
      ih fun x hx => h x (List.mem_cons_of_mem a hx)]

theorem flatten_map_filter_flatMap {α : Type} (segs : List α) (g : α → List RowT)
    (h : RowT → RowT) (p : RowT → Bool) :
    (segs.map fun s => ((g s).map h).filter p).flatten =
      ((segs.flatMap g).map h).filter p := by
  induction segs with
  | nil => rfl
  | cons s t ih =>
    rw [List.map_cons, List.flatten_cons, List.flatMap_cons, List.map_append,
      List.filter_append, ih]

/-! ### Well-formed stores and path equivalence -/

/-- A stored row is well formed for a projection list `need` when it binds
every projected column, its `Time` cell is a parsed timestamp (the ingestion
invariant) and its `TP` cell is a string. -/
def rowWF (need : List String) (r : RowT) : Bool :=
  need.all (fun c => (alookup c r).isSome) &&
  (match alookup "Time" r with
    | some (.time _) => true
    | _ => false) &&
  (match alookup "TP" r with
    | some (.str _) => true
    | _ => false)

/-- A segment is well formed for `need` when it is readable, declares every
projected column, and all its rows are well formed. -/
def segWF (need : List String) (s : Segment) : Bool :=
  s.readable && need.all (fun c => memb c s.cols) && s.rows.all (rowWF need)

/-- Store well-formedness for a query over `ne` and `kpis`. -/
def storeWF (st : Store) (ne : String) (kpis : List String) : Bool :=
  (glob_parquet_paths st ne).all (segWF (reserved ++ kpis))

/-- Per-row agreement of the two readings of the substring filter. -/
def tpRowAgree (tpc : Option String) (r : RowT) : Bool :=
  match tpc with
  | none => true
  | some sub =>
    match alookup "TP" r with
    | some (.str v) => strContains v sub == strContains (pyLower v) (pyLower sub)
    | _ => true

/-- The substring filter's case-sensitive (accelerated) and case-insensitive
(fallback) readings agree on every scanned `TP` value.  Holds vacuously when
`tp_contains` is not given. -/
def tpAgrees (tpc : Option String) (st : Store) (ne : String) : Bool :=
  (glob_parquet_paths st ne).all fun s => s.rows.all fun r => tpRowAgree tpc r

/-- The fallback `tp` filter as a total gate (true when the filter is off). -/
def tpGate (tpc : Option String) (r : RowT) : Bool :=
  if truthy tpc then fbTpPass (tpc.getD "") r else true

/-- The fallback `start` filter as a total gate. -/
def startGate (start : Option Int) (r : RowT) : Bool :=
  match start with
  | some s => decide (s ≤ rowTime r)
  | none => true

/-- The fallback `end` filter as a total gate. -/
def endGate (end_ : Option Int) (r : RowT) : Bool :=
  match end_ with
  | some e => decide (rowTime r ≤ e)
  | none => true

/-- Conjunction of the fallback path's row filters, in application order. -/
def fbPassAll (start end_ : Option Int) (tpc : Option String) (r : RowT) : Bool :=
  (tpGate tpc r && startGate start r) && endGate end_ r

theorem filter_filter' {α : Type} (p q : α → Bool) (l : List α) :
    (l.filter p).filter q = l.filter fun x => p x && q x := by
  induction l with
  | nil => rfl
  | cons a t ih =>
    rw [List.filter_cons, List.filter_cons]
    by_cases hp : p a = true
    · rw [if_pos hp, List.filter_cons, hp, Bool.true_and, ih]
    · rw [if_neg hp, (Bool.not_eq_true _).mp hp, Bool.false_and, if_neg (by simp), ih]

theorem filter_congr' {α : Type} {p q : α → Bool} {l : List α}
    (h : ∀ x ∈ l, p x = q x) : l.filter p = l.filter q := by
  induction l with
  | nil => rfl
  | cons a t ih =>
    rw [List.filter_cons, List.filter_cons, h a (List.mem_cons_self a t),
      ih fun x hx => h x (List.mem_cons_of_mem a hx)]

theorem insertRow_ne_nil (r : RowT) (l : List RowT) : insertRow r l ≠ [] := by
  cases l with
  | nil => simp [insertRow]
  | cons y t =>
    rw [insertRow]
    by_cases h : rowTime y ≤ rowTime r
    · rw [if_pos h]
      simp
    · rw [if_neg h]
      simp

theorem sortRows_eq_nil_iff {l : List RowT} : sortRows l = [] ↔ l = [] := by
  cases l with
  | nil => simp [sortRows]
  | cons y t =>
    rw [sortRows, List.foldr_cons]
    simp only [List.cons_ne_nil, iff_false]
    exact insertRow_ne_nil y _

/-- Facts about a well-formed row, extracted. -/
theorem rowWF_facts {need : List String} {r : RowT} (h : rowWF need r = true) :
    (∀ c ∈ need, (alookup c r).isSome) ∧
      (∃ t, alookup "Time" r = some (.time t)) ∧
      (∃ v, alookup "TP" r = some (.str v)) := by
  rw [rowWF, Bool.and_assoc, Bool.and_eq_true, Bool.and_eq_true] at h
  obtain ⟨h1, h2, h3⟩ := h
  refine ⟨fun c hc => List.all_eq_true.mp h1 c hc, ?_, ?_⟩
  · cases hv : alookup "Time" r with
    | none => rw [hv] at h2; exact absurd h2 (by simp)
    | some v =>
      cases v with
      | time t => exact ⟨t, rfl⟩
      | na => rw [hv] at h2; exact absurd h2 (by simp)
      | str s => rw [hv] at h2; exact absurd h2 (by simp)
      | int n => rw [hv] at h2; exact absurd h2 (by simp)
  · cases hv : alookup "TP" r with
    | none => rw [hv] at h3; exact absurd h3 (by simp)
    | some v =>
      cases v with
      | str s => exact ⟨s, rfl⟩
      | na => rw [hv] at h3; exact absurd h3 (by simp)
      | time t => rw [hv] at h3; exact absurd h3 (by simp)
      | int n => rw [hv] at h3; exact absurd h3 (by simp)

theorem memb_time_need (kpis : List String) : memb "Time" (reserved ++ kpis) = true := rfl

theorem memb_ne_need (kpis : List String) : memb "NE" (reserved ++ kpis) = true := rfl

theorem memb_tp_need (kpis : List String) : memb "TP" (reserved ++ kpis) = true := rfl

/-- Projection of a well-formed row keeps its `Time` lookup. -/
theorem alookup_time_projRow {kpis : List String} {r : RowT} :
    alookup "Time" (projRow (reserved ++ kpis) r) = alookup "Time" r := by
  rw [alookup_projRow, if_pos (memb_time_need kpis)]

/-- Projection of a well-formed row keeps its `TP` lookup. -/
theorem alookup_tp_projRow {kpis : List String} {r : RowT} :
    alookup "TP" (projRow (reserved ++ kpis) r) = alookup "TP" r := by
  rw [alookup_projRow, if_pos (memb_tp_need kpis)]

/-- On the projection of a row whose `Time` cell is already a parsed
timestamp, re-parsing the `Time` column is the identity. -/
theorem coerceTimeRow_projRow {kpis : List String} {r : RowT} {t : Int}
    (hT : alookup "Time" r = some (.time t)) :
    coerceTimeRow (projRow (reserved ++ kpis) r) = projRow (reserved ++ kpis) r := by
  rw [coerceTimeRow]
  apply mapAt_eq_self
  intro p hp h1
  rcases mem_projRow hp with ⟨_, hv⟩
  rw [h1] at hv
  have hp2 : p.2 = .time t := Option.some.injEq _ _ ▸ (hv.symm.trans hT)
  rw [hp2]
  rfl

theorem rowHasTime_projRow {kpis : List String} {r : RowT} {t : Int}
    (hT : alookup "Time" r = some (.time t)) :
    rowHasTime (projRow (reserved ++ kpis) r) = true := by
  rw [rowHasTime, alookup_time_projRow, hT]

theorem sqlPass_eval {ρ : RowT} {t : Int} {v : String}
    (hT : alookup "Time" ρ = some (.time t)) (hP : alookup "TP" ρ = some (.str v))
    (start end_ : Option Int) (tpc : Option String) :
    sqlPass start end_ tpc ρ =
      ((match start with
        | some s => decide (s ≤ t)
        | none => true) &&
       (match end_ with
        | some e => decide (t ≤ e)
        | none => true) &&
       (if truthy tpc then strContains v (tpc.getD "") else true)) := by
  simp only [sqlPass, hT, hP]

theorem fbPassAll_eval {ρ : RowT} {t : Int} {v : String}
    (hT : alookup "Time" ρ = some (.time t)) (hP : alookup "TP" ρ = some (.str v))
    (start end_ : Option Int) (tpc : Option String) :
    fbPassAll start end_ tpc ρ =
      (((if truthy tpc then strContains (pyLower v) (pyLower (tpc.getD "")) else true) &&
        (match start with
         | some s => decide (s ≤ t)
         | none => true)) &&
       (match end_ with
        | some e => decide (t ≤ e)
        | none => true)) := by
  simp only [fbPassAll, tpGate, startGate, endGate, fbTpPass, rowTime, hT, hP,
    Option.getD_some, pyStr]

/-- On a row whose `Time` is a parsed timestamp and whose `TP` is a string on
which the two substring readings agree, the fallback filter conjunction and
the SQL `WHERE` clause coincide. -/
theorem pass_eq {ρ : RowT} {t : Int} {v : String}
    (hT : alookup "Time" ρ = some (.time t)) (hP : alookup "TP" ρ = some (.str v))
    {start end_ : Option Int} {tpc : Option String}
    (hAg : truthy tpc = true →
      strContains v (tpc.getD "") = strContains (pyLower v) (pyLower (tpc.getD ""))) :
    fbPassAll start end_ tpc ρ = sqlPass start end_ tpc ρ := by
  rw [fbPassAll_eval hT hP, sqlPass_eval hT hP]
  cases htr : truthy tpc with
  | false => simp
  | true =>
    rw [if_pos rfl, if_pos rfl, ← hAg htr]
    cases hs : (match start with
      | some s => decide (s ≤ t)
      | none => true) <;>
      cases he : (match end_ with
        | some e => decide (t ≤ e)
        | none => true) <;>
      cases hc : strContains v (tpc.getD "") <;> rfl

/-- On a well-formed segment, the fallback per-segment pipeline reduces to
projecting every row and filtering by the conjunction of its three gates. -/
theorem perSegment_wf' {kpis : List String} {start end_ : Option Int}
    {tpc : Option String} {s : Segment}
    (hwf : segWF (reserved ++ kpis) s = true) :
    perSegment kpis start end_ tpc s =
      some ((s.rows.map (projRow (reserved ++ kpis))).filter
        (fbPassAll start end_ tpc)) := by
  rw [segWF, Bool.and_assoc, Bool.and_eq_true, Bool.and_eq_true] at hwf
  obtain ⟨hread, hcols, hrows⟩ := hwf
  have hcols' : ∀ c ∈ reserved ++ kpis, memb c s.cols = true :=
    fun c hc => List.all_eq_true.mp hcols c hc
  have hrows' : ∀ r ∈ s.rows, rowWF (reserved ++ kpis) r = true :=
    fun r hr => List.all_eq_true.mp hrows r hr
  have hwant : (reserved ++ kpis).filter (fun c => memb c s.cols) = reserved ++ kpis :=
    filter_all_true hcols'
  rw [perSegment, hread, hwant]
  simp only [Bool.not_true, Bool.false_eq_true, if_false]
  have hne : ((reserved ++ kpis).isEmpty = true) = False := by
    simp [reserved]
  rw [if_neg (by simp [reserved]), if_neg (by rw [memb_time_need]; simp),
    if_neg (by rw [memb_tp_need]; simp)]
  -- the `Time` re-parse and `dropna` are the identity on projected wf rows
  have hid : (s.rows.map (projRow (reserved ++ kpis))).map coerceTimeRow =
      s.rows.map (projRow (reserved ++ kpis)) := by
    apply map_id_of
    intro x hx
    rcases List.mem_map.mp hx with ⟨r, hr, he⟩
    rcases rowWF_facts (hrows' r hr) with ⟨_, ⟨t, hT⟩, _⟩
    rw [← he]
    exact coerceTimeRow_projRow hT
  have hkeep : (s.rows.map (projRow (reserved ++ kpis))).filter rowHasTime =
      s.rows.map (projRow (reserved ++ kpis)) := by
    apply filter_all_true
    intro x hx
    rcases List.mem_map.mp hx with ⟨r, hr, he⟩
    rcases rowWF_facts (hrows' r hr) with ⟨_, ⟨t, hT⟩, _⟩
    rw [← he]
    exact rowHasTime_projRow hT
  rw [hid, hkeep]
  -- fold the three sequential filters into the conjunction, then rewrite it
  -- pointwise to the SQL clause
  have h2 : (if truthy tpc then
        ((s.rows.map (projRow (reserved ++ kpis))).filter (fbTpPass (tpc.getD "")))
      else s.rows.map (projRow (reserved ++ kpis))) =
      (s.rows.map (projRow (reserved ++ kpis))).filter (tpGate tpc) := by
    cases htr : truthy tpc with
    | false =>
      rw [if_neg (by simp)]
      symm
      apply filter_all_true
      intro x _
      rw [tpGate, htr, if_neg (by simp)]
    | true =>
      rw [if_pos rfl]
      apply filter_congr'
      intro x _
      rw [tpGate, htr, if_pos rfl]
  rw [h2]
  have h3 : ∀ l : List RowT, (match start with
      | some st => l.filter fun r => decide (st ≤ rowTime r)
      | none => l) = l.filter (startGate start) := by
    intro l
    cases start with
    | none =>
      symm
      apply filter_all_true
      intro x _
      rfl
    | some st => rfl
  rw [h3]
  have h4 : ∀ l : List RowT, (match end_ with
      | some en => l.filter fun r => decide (rowTime r ≤ en)
      | none => l) = l.filter (endGate end_) := by
    intro l
    cases end_ with
    | none =>
      symm
      apply filter_all_true
      intro x _
      rfl
    | some en => rfl
  rw [h4, filter_filter', filter_filter']
  congr 1
  apply filter_congr'
  intro x _
  rw [fbPassAll, Bool.and_assoc]

/-- On a well-formed segment whose rows satisfy the substring-filter
agreement, the fallback per-segment pipeline reduces to projecting every row
and filtering by the SQL `WHERE` clause. -/
theorem perSegment_wf {kpis : List String} {start end_ : Option Int}
    {tpc : Option String} {s : Segment}
    (hwf : segWF (reserved ++ kpis) s = true)
    (hag : ∀ r ∈ s.rows, tpRowAgree tpc r = true) :
    perSegment kpis start end_ tpc s =
      some ((s.rows.map (projRow (reserved ++ kpis))).filter
        (sqlPass start end_ tpc)) := by
  rw [perSegment_wf' hwf]
  have hrows' : ∀ r ∈ s.rows, rowWF (reserved ++ kpis) r = true := by
    rw [segWF, Bool.and_assoc, Bool.and_eq_true, Bool.and_eq_true] at hwf
    exact fun r hr => List.all_eq_true.mp hwf.2.2 r hr
  congr 1
  apply filter_congr'
  intro x hx
  rcases List.mem_map.mp hx with ⟨r, hr, he⟩
  rcases rowWF_facts (hrows' r hr) with ⟨_, ⟨t, hT⟩, ⟨v, hP⟩⟩
  have hT' : alookup "Time" x = some (.time t) := by
    rw [← he, alookup_time_projRow, hT]
  have hP' : alookup "TP" x = some (.str v) := by
    rw [← he, alookup_tp_projRow, hP]
  have hAg : truthy tpc = true →
      strContains v (tpc.getD "") =
        strContains (pyLower v) (pyLower (tpc.getD "")) := by
    intro htr
    have := hag r hr
    cases tpc with
    | none => exact absurd htr (by simp [truthy])
    | some sub =>
      rw [tpRowAgree, hP] at this
      exact eq_of_beq this
  exact pass_eq hT' hP' hAg

/-- For a non-negative `max_rows` the two trimming guards coincide (they
differ only on negative values, where the accelerated path keeps everything
and the fallback path drops the first `|max_rows|` rows). -/
theorem trims_eq {m : Int} (hm : 0 ≤ m) (l : List RowT) : accTrim m l = fbTrim m l := by
  rcases eq_or_lt_of_le hm with h0 | hpos
  · rw [accTrim, fbTrim, ← h0]
    simp
  · have h1 : ¬ m = 0 := fun h => absurd (h ▸ hpos) (by simp)
    rw [accTrim, fbTrim]
    simp [h1, hpos]

/-- Core equivalence: on a list of well-formed segments whose rows satisfy
the substring-filter agreement, and for non-negative `max_rows`, the
accelerated scan and the fallback scan-and-concatenate produce the same
table. -/
theorem paths_agree_core {segs : List Segment} {kpis : List String}
    {start end_ : Option Int} {tpc : Option String} {m : Int}
    (hwf : segs.all (segWF (reserved ++ kpis)) = true)
    (hag : segs.all (fun s => s.rows.all (tpRowAgree tpc)) = true)
    (hm : 0 ≤ m) :
    acceleratedQuery segs kpis start end_ tpc m =
      .ok (fallbackQuery segs kpis start end_ tpc m) := by
  have hwf' : ∀ s ∈ segs, segWF (reserved ++ kpis) s = true := List.all_eq_true.mp hwf
  have hag' : ∀ s ∈ segs, ∀ r ∈ s.rows, tpRowAgree tpc r = true :=
    fun s hs => List.all_eq_true.mp (List.all_eq_true.mp hag s hs)
  have g1 : (segs.any fun s => !s.readable) = false := by
    rw [Bool.eq_false_iff]
    intro h
    rcases List.any_eq_true.mp h with ⟨s, hs, hb⟩
    have := hwf' s hs
    rw [segWF, Bool.and_assoc, Bool.and_eq_true] at this
    rw [this.1] at hb
    exact absurd hb (by simp)
  have g2 : ((reserved ++ kpis).any fun c => segs.any fun s => !(memb c s.cols)) = false := by
    rw [Bool.eq_false_iff]
    intro h
    rcases List.any_eq_true.mp h with ⟨c, hc, hb⟩
    rcases List.any_eq_true.mp hb with ⟨s, hs, hb2⟩
    have := hwf' s hs
    rw [segWF, Bool.and_assoc, Bool.and_eq_true, Bool.and_eq_true] at this
    rw [List.all_eq_true.mp this.2.1 c hc] at hb2
    exact absurd hb2 (by simp)
  have hframes : segs.filterMap (perSegment kpis start end_ tpc) =
      segs.map fun s =>
        (s.rows.map (projRow (reserved ++ kpis))).filter (sqlPass start end_ tpc) :=
    filterMap_eq_map_of fun s hs => perSegment_wf (hwf' s hs) (hag' s hs)
  have hflat : (segs.map fun s =>
      (s.rows.map (projRow (reserved ++ kpis))).filter (sqlPass start end_ tpc)).flatten =
      ((segs.flatMap (·.rows)).map (projRow (reserved ++ kpis))).filter
        (sqlPass start end_ tpc) :=
    flatten_map_filter_flatMap segs (·.rows) (projRow (reserved ++ kpis))
      (sqlPass start end_ tpc)
  rw [acceleratedQuery, fallbackQuery, hframes, hflat, g1, g2]
  simp only [Bool.false_eq_true, if_false]
  set rows1 := ((segs.flatMap (·.rows)).map (projRow (reserved ++ kpis))).filter
    (sqlPass start end_ tpc) with hrows1
  by_cases hE : (sortRows rows1).isEmpty = true
  · rw [if_pos hE]
    have hnil : sortRows rows1 = [] := by
      cases hq : sortRows rows1 with
      | nil => rfl
      | cons a t => rw [hq] at hE; exact absurd hE (by simp)
    by_cases hF : (segs.map fun s =>
        (s.rows.map (projRow (reserved ++ kpis))).filter (sqlPass start end_ tpc)).isEmpty = true
    · rw [if_pos hF]
    · rw [if_neg hF, hnil, List.map_nil]
      simp [fbTrim, pdTail]
  · rw [if_neg hE]
    have hrne : rows1 ≠ [] := by
      intro h
      rw [h] at hE
      exact hE (by simp [sortRows])
    have hsne : segs ≠ [] := by
      intro h
      apply hrne
      rw [hrows1, h]
      rfl
    have hF : (segs.map fun s =>
        (s.rows.map (projRow (reserved ++ kpis))).filter (sqlPass start end_ tpc)).isEmpty = false := by
      cases hq : segs with
      | nil => exact absurd hq hsne
      | cons a t => simp
    rw [hF]
    simp only [Bool.false_eq_true, if_false]
    -- members of the sorted filtered list are projections of well-formed rows
    have hmemwf : ∀ x ∈ sortRows rows1, ∃ r t, x = projRow (reserved ++ kpis) r ∧
        alookup "Time" r = some (.time t) := by
      intro x hx
      have hx1 : x ∈ rows1 := mem_sortRows.mp hx
      rw [hrows1] at hx1
      have hx2 := List.mem_filter.mp hx1
      rcases List.mem_map.mp hx2.1 with ⟨r, hr, he⟩
      rcases List.mem_flatMap.mp hr with ⟨s, hs, hrs⟩
      rcases rowWF_facts (List.all_eq_true.mp
        (by
          have := hwf' s hs
          rw [segWF, Bool.and_assoc, Bool.and_eq_true, Bool.and_eq_true] at this
          exact this.2.2) r hrs) with ⟨_, ⟨t, hT⟩, _⟩
      exact ⟨r, t, he.symm, hT⟩
    have hid : (sortRows rows1).map coerceTimeRow = sortRows rows1 := by
      apply map_id_of
      intro x hx
      rcases hmemwf x hx with ⟨r, t, he, hT⟩
      rw [he]
      exact coerceTimeRow_projRow hT
    have hkeep : (sortRows rows1).filter rowHasTime = sortRows rows1 := by
      apply filter_all_true
      intro x hx
      rcases hmemwf x hx with ⟨r, t, he, hT⟩
      rw [he]
      exact rowHasTime_projRow hT
    rw [hid, hkeep, trims_eq hm]

/-! ### Claims -/

instance decEqExceptQ : DecidableEq (Except QErr (List RowT)) := fun a b =>
  match a, b with
  | .ok x, .ok y =>
    if h : x = y then isTrue (by rw [h]) else isFalse (fun he => h (Except.ok.inj he))
  | .error x, .error y =>
    if h : x = y then isTrue (by rw [h]) else isFalse (fun he => h (Except.error.inj he))
  | .ok _, .error _ => isFalse (fun he => Except.noConfusion he)
  | .error _, .ok _ => isFalse (fun he => Except.noConfusion he)

/-- Concrete store refuting C1 as stated: one well-formed segment whose only
row has `TP = "OCH"`, queried with `tp_contains = "och"`. -/
def c1store : Store :=
  ⟨[("N", [⟨true, ["Time", "NE", "TP", "K"],
    [[("Time", .time 0), ("NE", .str "N"), ("TP", .str "OCH"), ("K", .int 1)]]⟩])]⟩

/-- C1, counterexample: the accelerated path's `LIKE '%och%'` is
case-sensitive and matches nothing, while the fallback path's
case-insensitive `str.contains` keeps the row, so the two execution paths
return different tables for this well-formed store. -/
theorem query_data_paths_differ :
    query_data true c1store (some "N") (some ["K"]) none none (some "och") 0 ≠
      query_data false c1store (some "N") (some ["K"]) none none (some "och") 0 := by
  decide

/-- C1 (amended): the accelerated (DuckDB) and fallback (per-file pandas)
paths of `query_data` return equal tables for every well-formed store
(readable segments containing the reserved and requested columns, with
timestamp `Time` and string `TP` cells), provided `max_rows` is
non-negative and the case-sensitive and case-insensitive readings of the
`tp_contains` substring filter agree on every scanned `TP` value (in
particular whenever `tp_contains` is omitted). -/
theorem query_data_paths_agree (st : Store) (ne : String) (kpis : List String)
    (start end_ : Option Int) (tpc : Option String) (maxRows : Int)
    (hwf : storeWF st ne kpis = true)
    (hag : tpAgrees tpc st ne = true)
    (hm : 0 ≤ maxRows) :
    query_data true st (some ne) (some kpis) start end_ tpc maxRows =
      query_data false st (some ne) (some kpis) start end_ tpc maxRows := by
  simp only [query_data]
  by_cases hk : kpis.length = 0
  · rw [if_pos hk, if_pos hk]
  · rw [if_neg hk, if_neg hk]
    by_cases hp : (glob_parquet_paths st ne).isEmpty = true
    · rw [if_pos hp, if_pos hp]
    · rw [if_neg hp, if_neg hp, if_pos trivial, if_neg (by simp)]
      exact paths_agree_core hwf hag hm

/-- Concrete well-formed store exercising C1's amended statement. -/
def c1wstore : Store :=
  ⟨[("N", [⟨true, ["Time", "NE", "TP", "K"],
    [[("Time", .time 100), ("NE", .str "N"), ("TP", .str "OCH-1"), ("K", .int 1)],
     [("Time", .time 50), ("NE", .str "N"), ("TP", .str "OCH-2"), ("K", .str "7")]]⟩])]⟩

/-- C1, witness: the amended equivalence applied to a concrete store with a
time window, a substring filter and a row cap. -/
theorem query_data_paths_agree_witness :
    query_data true c1wstore (some "N") (some ["K"]) (some 0) (some 1000) (some "OCH") 1 =
      query_data false c1wstore (some "N") (some ["K"]) (some 0) (some 1000) (some "OCH") 1 :=
  query_data_paths_agree c1wstore "N" ["K"] (some 0) (some 1000) (some "OCH") 1
    (by decide) (by decide) (by decide)

/-- Does a query outcome signal an argument-validation failure? -/
def isInvalidArg {α : Type} : Except QErr α → Bool
  | .error (.invalidArgument _) => true
  | _ => false

/-- The accelerated path can fail, but never with an argument-validation
error. -/
theorem isInvalidArg_accelerated (segs : List Segment) (kpis : List String)
    (start end_ : Option Int) (tpc : Option String) (m : Int) :
    isInvalidArg (acceleratedQuery segs kpis start end_ tpc m) = false := by
  rw [acceleratedQuery]
  by_cases h1 : (segs.any fun s => !s.readable) = true
  · rw [if_pos h1]
    rfl
  · rw [if_neg h1]
    by_cases h2 : ((reserved ++ kpis).any fun c => segs.any fun s => !(memb c s.cols)) = true
    · rw [if_pos h2]
      rfl
    · rw [if_neg h2]
      by_cases h3 : (sortRows (((segs.flatMap (·.rows)).map
          (projRow (reserved ++ kpis))).filter (sqlPass start end_ tpc))).isEmpty = true
      · rw [if_pos h3]
        rfl
      · rw [if_neg h3]
        rfl

/-- C6: `query_data` signals an argument-validation failure (and returns no
table at all) exactly when the element id is null or the KPI list is null or
empty; for every other argument combination, whatever else may happen, no
argument-validation error is raised. -/
theorem query_data_invalid_arguments (avail : Bool) (st : Store)
    (ne : Option String) (kpis : Option (List String))
    (start end_ : Option Int) (tpc : Option String) (m : Int) :
    isInvalidArg (query_data avail st ne kpis start end_ tpc m) = true ↔
      (ne = none ∨ kpis = none ∨ kpis = some []) := by
  cases ne with
  | none => simp [query_data, isInvalidArg]
  | some n =>
    cases kpis with
    | none => simp [query_data, isInvalidArg]
    | some ks =>
      simp only [query_data]
      by_cases hk : ks.length = 0
      · rw [if_pos hk]
        have hnil : ks = [] := List.length_eq_zero.mp hk
        simp [isInvalidArg, hnil]
      · rw [if_neg hk]
        have hne : ¬ ks = [] := fun h => hk (by rw [h]; rfl)
        constructor
        · intro h
          exfalso
          by_cases hp : (glob_parquet_paths st n).isEmpty = true
          · rw [if_pos hp] at h
            exact absurd h (by simp [isInvalidArg])
          · rw [if_neg hp] at h
            cases avail with
            | true =>
              rw [if_pos rfl] at h
              rw [isInvalidArg_accelerated] at h
              exact absurd h (by simp)
            | false =>
              rw [if_neg (by simp)] at h
              exact absurd h (by simp [isInvalidArg])
        · intro h
          rcases h with h | h | h
          · exact absurd h (by simp)
          · exact absurd h (by simp)
          · exact absurd (Option.some.inj h) hne

theorem accTrim_zero (l : List RowT) : accTrim 0 l = l := by simp [accTrim]

theorem fbTrim_zero (l : List RowT) : fbTrim 0 l = l := by simp [fbTrim]

theorem acceleratedQuery_tail {segs : List Segment} {ks : List String}
    {s e : Option Int} {tpc : Option String} {N : Int} {rows : List RowT}
    (hN : 0 < N)
    (h0 : acceleratedQuery segs ks s e tpc 0 = .ok rows)
    (hlen : N < (rows.length : Int)) :
    acceleratedQuery segs ks s e tpc N = .ok (rows.drop (rows.length - N.toNat)) := by
  rw [acceleratedQuery] at h0 ⊢
  by_cases h1 : (segs.any fun sg => !sg.readable) = true
  · rw [if_pos h1] at h0
    exact Except.noConfusion h0
  · rw [if_neg h1] at h0 ⊢
    by_cases h2 : ((reserved ++ ks).any fun c => segs.any fun sg => !(memb c sg.cols)) = true
    · rw [if_pos h2] at h0
      exact Except.noConfusion h0
    · rw [if_neg h2] at h0 ⊢
      by_cases h3 : (sortRows (((segs.flatMap (·.rows)).map
          (projRow (reserved ++ ks))).filter (sqlPass s e tpc))).isEmpty = true
      · rw [if_pos h3] at h0
        have hr : rows = [] := (Except.ok.inj h0).symm
        rw [hr] at hlen
        simp at hlen
        omega
      · rw [if_neg h3] at h0 ⊢
        set L := (((sortRows (((segs.flatMap (·.rows)).map
            (projRow (reserved ++ ks))).filter (sqlPass s e tpc))).map
            coerceTimeRow).filter rowHasTime).map (coerceKpisRow ks) with hL
        have hr : rows = L := by
          have := Except.ok.inj h0
          rw [accTrim_zero] at this
          exact this.symm
        subst hr
        have hcond : ((!(N = 0 : Prop)) && decide (0 < N) && decide (N < (L.length : Int))) = true := by
          simp only [Bool.and_eq_true, decide_eq_true_eq, Bool.not_eq_true',
            decide_eq_false_iff_not]
          exact ⟨⟨by omega, hN⟩, hlen⟩
        simp only [accTrim]
        rw [if_pos hcond, pdTail, if_pos (le_of_lt hN)]

theorem fallbackQuery_tail {segs : List Segment} {ks : List String}
    {s e : Option Int} {tpc : Option String} {N : Int} {rows : List RowT}
    (hN : 0 < N)
    (h0 : fallbackQuery segs ks s e tpc 0 = rows)
    (hlen : N < (rows.length : Int)) :
    fallbackQuery segs ks s e tpc N = rows.drop (rows.length - N.toNat) := by
  rw [fallbackQuery] at h0 ⊢
  by_cases hF : (segs.filterMap (perSegment ks s e tpc)).isEmpty = true
  · rw [if_pos hF] at h0
    rw [← h0] at hlen
    simp at hlen
    omega
  · rw [if_neg hF] at h0 ⊢
    set L := (sortRows (segs.filterMap (perSegment ks s e tpc)).flatten).map
      (coerceKpisRow ks) with hL
    rw [fbTrim_zero] at h0
    subst h0
    have hcond : ((!(N = 0 : Bool)) && decide (N < (L.length : Int))) = true := by
      simp only [Bool.and_eq_true, decide_eq_true_eq, Bool.not_eq_true',
        decide_eq_false_iff_not]
      exact ⟨by omega, hlen⟩
    simp only [fbTrim]
    rw [if_pos hcond, pdTail, if_pos (le_of_lt hN)]

/-- C7: whenever the query capped at `max_rows = N > 0` is compared with the
same query uncapped, and the uncapped time-ascending result has more than
`N` rows, the capped query returns exactly the LAST `N` rows of the uncapped
result — the chronologically latest window, never the first `N`. -/
theorem query_data_max_rows_latest (avail : Bool) (st : Store)
    (ne : Option String) (kpis : Option (List String))
    (start end_ : Option Int) (tpc : Option String) (N : Int) (rows : List RowT)
    (hN : 0 < N)
    (h0 : query_data avail st ne kpis start end_ tpc 0 = .ok rows)
    (hlen : N < (rows.length : Int)) :
    query_data avail st ne kpis start end_ tpc N =
      .ok (rows.drop (rows.length - N.toNat)) := by
  cases ne with
  | none =>
    simp only [query_data] at h0
    exact Except.noConfusion h0
  | some n =>
    cases kpis with
    | none =>
      simp only [query_data] at h0
      exact Except.noConfusion h0
    | some ks =>
      simp only [query_data] at h0 ⊢
      by_cases hk : ks.length = 0
      · rw [if_pos hk] at h0
        exact Except.noConfusion h0
      · rw [if_neg hk] at h0 ⊢
        by_cases hp : (glob_parquet_paths st n).isEmpty = true
        · rw [if_pos hp] at h0
          have hr : rows = [] := (Except.ok.inj h0).symm
          rw [hr] at hlen
          simp at hlen
          omega
        · rw [if_neg hp] at h0 ⊢
          cases avail with
          | true =>
            rw [if_pos rfl] at h0 ⊢
            exact acceleratedQuery_tail hN h0 hlen
          | false =>
            rw [if_neg (by simp)] at h0 ⊢
            rw [fallbackQuery_tail hN (Except.ok.inj h0) hlen]

/-- Concrete three-row store for C7's witness; segment rows are deliberately
out of time order. -/
def c7store : Store :=
  ⟨[("N", [⟨true, ["Time", "NE", "TP", "K"],
    [[("Time", .time 20), ("NE", .str "N"), ("TP", .str "P"), ("K", .int 2)],
     [("Time", .time 10), ("NE", .str "N"), ("TP", .str "P"), ("K", .int 1)],
     [("Time", .time 30), ("NE", .str "N"), ("TP", .str "P"), ("K", .int 3)]]⟩])]⟩

/-- The uncapped, time-sorted result over `c7store`. -/
def c7rows : List RowT :=
  [[("Time", .time 10), ("NE", .str "N"), ("TP", .str "P"), ("K", .int 1)],
   [("Time", .time 20), ("NE", .str "N"), ("TP", .str "P"), ("K", .int 2)],
   [("Time", .time 30), ("NE", .str "N"), ("TP", .str "P"), ("K", .int 3)]]

/-- C7, witness: capping at 2 returns the last two (latest) of the three
sorted rows. -/
theorem query_data_max_rows_latest_witness :
    query_data true c7store (some "N") (some ["K"]) none none none 2 =
      .ok (c7rows.drop (c7rows.length - (2 : Int).toNat)) :=
  query_data_max_rows_latest true c7store (some "N") (some ["K"]) none none none 2 c7rows
    (by decide) (by decide) (by decide)

/-- The rows every execution path scans: all rows of the located segments,
projected onto the reserved and requested columns. -/
def scanRows (st : Store) (ne : String) (kpis : List String) : List RowT :=
  ((glob_parquet_paths st ne).flatMap (·.rows)).map (projRow (reserved ++ kpis))

theorem filter_all_false {α : Type} {p : α → Bool} {l : List α}
    (h : ∀ x ∈ l, p x = false) : l.filter p = [] := by
  induction l with
  | nil => rfl
  | cons a t ih =>
    rw [List.filter_cons, if_neg (by rw [h a (List.mem_cons_self a t)]; simp)]
    exact ih fun x hx => h x (List.mem_cons_of_mem a hx)

theorem flatten_nil_of {α : Type} {L : List (List α)} (h : ∀ x ∈ L, x = []) :
    L.flatten = [] := by
  induction L with
  | nil => rfl
  | cons a t ih =>
    rw [List.flatten_cons, h a (List.mem_cons_self a t), List.nil_append]
    exact ih fun x hx => h x (List.mem_cons_of_mem a hx)

/-- Well-formedness makes both accelerated-path guards pass. -/
theorem acc_guards_false {segs : List Segment} {kpis : List String}
    (hwf : segs.all (segWF (reserved ++ kpis)) = true) :
    (segs.any fun s => !s.readable) = false ∧
      ((reserved ++ kpis).any fun c => segs.any fun s => !(memb c s.cols)) = false := by
  have hwf' : ∀ s ∈ segs, segWF (reserved ++ kpis) s = true := List.all_eq_true.mp hwf
  constructor
  · rw [Bool.eq_false_iff]
    intro h
    rcases List.any_eq_true.mp h with ⟨s, hs, hb⟩
    have := hwf' s hs
    rw [segWF, Bool.and_assoc, Bool.and_eq_true] at this
    rw [this.1] at hb
    exact absurd hb (by simp)
  · rw [Bool.eq_false_iff]
    intro h
    rcases List.any_eq_true.mp h with ⟨c, hc, hb⟩
    rcases List.any_eq_true.mp hb with ⟨s, hs, hb2⟩
    have := hwf' s hs
    rw [segWF, Bool.and_assoc, Bool.and_eq_true, Bool.and_eq_true] at this
    rw [List.all_eq_true.mp this.2.1 c hc] at hb2
    exact absurd hb2 (by simp)

/-- C8: an empty result is never an error.  If the element has no partition,
or the store is well formed and no scanned row passes the conjunctive
filters of either path (in particular whenever `start > end`), `query_data`
returns an empty table. -/
theorem query_data_empty_result (avail : Bool) (st : Store) (n : String)
    (ks : List String) (start end_ : Option Int) (tpc : Option String) (m : Int)
    (hks : ¬ ks = [])
    (h : glob_parquet_paths st n = [] ∨
      (storeWF st n ks = true ∧
        ∀ r ∈ scanRows st n ks,
          sqlPass start end_ tpc r = false ∧ fbPassAll start end_ tpc r = false)) :
    query_data avail st (some n) (some ks) start end_ tpc m = .ok [] := by
  simp only [query_data]
  rw [if_neg (fun hl => hks (List.length_eq_zero.mp hl))]
  rcases h with hnil | ⟨hwf, hfail⟩
  · rw [hnil]
    simp
  · by_cases hp : (glob_parquet_paths st n).isEmpty = true
    · rw [if_pos hp]
    · rw [if_neg hp]
      have hrows1 : (((glob_parquet_paths st n).flatMap (·.rows)).map
          (projRow (reserved ++ ks))).filter (sqlPass start end_ tpc) = [] :=
        filter_all_false fun r hr => (hfail r hr).1
      cases avail with
      | true =>
        rw [if_pos rfl, acceleratedQuery]
        obtain ⟨g1, g2⟩ := @acc_guards_false (glob_parquet_paths st n) ks hwf
        rw [g1, g2]
        simp only [Bool.false_eq_true, if_false]
        rw [hrows1,
          if_pos (show (sortRows ([] : List RowT)).isEmpty = true from rfl)]
      | false =>
        rw [if_neg (by simp)]
        congr 1
        rw [fallbackQuery]
        have hframes : (glob_parquet_paths st n).filterMap
            (perSegment ks start end_ tpc) =
            (glob_parquet_paths st n).map (fun _ => ([] : List RowT)) := by
          apply filterMap_eq_map_of
          intro s hs
          rw [perSegment_wf' (List.all_eq_true.mp hwf s hs)]
          congr 1
          apply filter_all_false
          intro x hx
          rcases List.mem_map.mp hx with ⟨r, hr, he⟩
          exact (hfail x (List.mem_map.mpr
            ⟨r, List.mem_flatMap.mpr ⟨s, hs, hr⟩, he⟩)).2
        rw [hframes]
        by_cases hFe : ((glob_parquet_paths st n).map (fun _ => ([] : List RowT))).isEmpty = true
        · rw [if_pos hFe]
        · rw [if_neg hFe]
          have hfl : ((glob_parquet_paths st n).map (fun _ => ([] : List RowT))).flatten = [] := by
            apply flatten_nil_of
            intro x hx
            rcases List.mem_map.mp hx with ⟨_, _, he⟩
            exact he.symm
          rw [hfl]
          simp [fbTrim, pdTail, sortRows]

/-- Concrete one-row store for C8's witness. -/
def c8store : Store :=
  ⟨[("N", [⟨true, ["Time", "NE", "TP", "K"],
    [[("Time", .time 50), ("NE", .str "N"), ("TP", .str "P"), ("K", .int 1)]]⟩])]⟩

/-- C8, witness: `start > end` yields an empty table, not an error. -/
theorem query_data_empty_result_witness :
    query_data true c8store (some "N") (some ["K"]) (some 100) (some 0) none 5 = .ok [] :=
  query_data_empty_result true c8store "N" ["K"] (some 100) (some 0) none 5 (by decide)
    (Or.inr ⟨by decide, by decide⟩)

/-- Drop one requested KPI name from the request list. -/
def removeName (k : String) (ks : List String) : List String :=
  ks.filter fun c => !(c == k)

theorem memb_removeName {c k : String} (h : ¬ c = k) (ks : List String) :
    memb c (removeName k ks) = memb c ks := by
  induction ks with
  | nil => rfl
  | cons a t ih =>
    rw [removeName] at ih ⊢
    by_cases hak : (a == k) = true
    · have ha : a = k := eq_of_beq hak
      conv_lhs => rw [List.filter_cons]
      rw [if_neg (by rw [hak]; simp), memb_cons,
        decide_eq_false (fun hac : a = c => h (hac ▸ ha)), Bool.false_or]
      exact ih
    · conv_lhs => rw [List.filter_cons]
      rw [if_pos (by simp [hak]), memb_cons, memb_cons, ih]

theorem filter_memb_remove {k : String} {cols : List String}
    (hmk : memb k cols = false) (ks : List String) :
    (reserved ++ ks).filter (fun c => memb c cols) =
      (reserved ++ removeName k ks).filter (fun c => memb c cols) := by
  rw [List.filter_append, List.filter_append]
  congr 1
  induction ks with
  | nil => rfl
  | cons a t ih =>
    rw [removeName] at ih ⊢
    by_cases hak : (a == k) = true
    · have ha : a = k := eq_of_beq hak
      conv_rhs => rw [List.filter_cons]
      rw [if_neg (by rw [hak]; simp), List.filter_cons,
        if_neg (by rw [ha, hmk]; simp)]
      exact ih
    · conv_rhs => rw [List.filter_cons]
      rw [if_pos (by simp [hak])]
      conv_rhs => rw [List.filter_cons]
      rw [List.filter_cons, ih]

/-- `perSegment` depends on the request list only through the wanted-columns
intersection, so dropping a name absent from the segment's schema changes
nothing. -/
theorem perSegment_remove {k : String} {ks : List String} {s e : Option Int}
    {tpc : Option String} {seg : Segment} (hmk : memb k seg.cols = false) :
    perSegment ks s e tpc seg = perSegment (removeName k ks) s e tpc seg := by
  simp only [perSegment]
  rw [← filter_memb_remove hmk ks]

theorem filterMap_congr' {α β : Type} {f g : α → Option β} {l : List α}
    (h : ∀ x ∈ l, f x = g x) : l.filterMap f = l.filterMap g := by
  induction l with
  | nil => rfl
  | cons a t ih =>
    rw [List.filterMap_cons, List.filterMap_cons, h a (List.mem_cons_self a t),
      ih fun x hx => h x (List.mem_cons_of_mem a hx)]

theorem map_congr' {α β : Type} {f g : α → β} {l : List α}
    (h : ∀ x ∈ l, f x = g x) : l.map f = l.map g := by
  induction l with
  | nil => rfl
  | cons a t ih =>
    rw [List.map_cons, List.map_cons, h a (List.mem_cons_self a t),
      ih fun x hx => h x (List.mem_cons_of_mem a hx)]

theorem keys_of_mapAt {c : String} {g : Val → Val} {y : RowT} {p : String × Val}
    (hp : p ∈ mapAt c g y) : ∃ q ∈ y, p.1 = q.1 := by
  rcases List.mem_map.mp hp with ⟨q, hq, he⟩
  refine ⟨q, hq, ?_⟩
  rw [← he]
  by_cases hqc : q.1 = c
  · rw [if_pos hqc]
  · rw [if_neg hqc]

theorem keys_of_coerceKpisRow {ks : List String} {y : RowT} {p : String × Val}
    (hp : p ∈ coerceKpisRow ks y) : ∃ q ∈ y, p.1 = q.1 := by
  rcases List.mem_map.mp hp with ⟨q, hq, he⟩
  refine ⟨q, hq, ?_⟩
  rw [← he]
  by_cases hqc : ((!(q.1 = "Time")) && memb q.1 ks) = true
  · rw [if_pos hqc]
  · rw [if_neg hqc]

theorem alookup_eq_none_of_keys {c : String} {r : RowT}
    (h : ∀ p ∈ r, ¬ p.1 = c) : alookup c r = none := by
  induction r with
  | nil => rfl
  | cons q t ih =>
    obtain ⟨kk, v⟩ := q
    rw [alookup_cons, if_neg (h (kk, v) (List.mem_cons_self _ t))]
    exact ih fun p hp => h p (List.mem_cons_of_mem _ hp)

/-- Every column label appearing in a frame produced by the fallback
per-segment body exists in that segment's schema. -/
theorem perSegment_keys {ks : List String} {s e : Option Int} {tpc : Option String}
    {seg : Segment} {fr : List RowT}
    (h : perSegment ks s e tpc seg = some fr) :
    ∀ x ∈ fr, ∀ p ∈ x, memb p.1 seg.cols = true := by
  rw [perSegment] at h
  by_cases h1 : (!seg.readable) = true
  · rw [if_pos h1] at h
    exact absurd h (by simp)
  · rw [if_neg h1] at h
    by_cases h2 : ((reserved ++ ks).filter fun c => memb c seg.cols).isEmpty = true
    · rw [if_pos h2] at h
      exact absurd h (by simp)
    · rw [if_neg h2] at h
      by_cases h3 : (!(memb "Time" ((reserved ++ ks).filter fun c => memb c seg.cols))) = true
      · rw [if_pos h3] at h
        exact absurd h (by simp)
      · rw [if_neg h3] at h
        by_cases h4 : (truthy tpc &&
            !(memb "TP" ((reserved ++ ks).filter fun c => memb c seg.cols))) = true
        · rw [if_pos h4] at h
          exact absurd h (by simp)
        · rw [if_neg h4] at h
          have hfr := (Option.some.inj h).symm
          intro x hx p hp
          rw [hfr] at hx
          -- peel the `end` filter
          have hx3 : x ∈ (match s with
              | some st => (if truthy tpc then
                  (((seg.rows.map (projRow ((reserved ++ ks).filter fun c =>
                    memb c seg.cols))).map coerceTimeRow).filter rowHasTime).filter
                      (fbTpPass (tpc.getD ""))
                else ((seg.rows.map (projRow ((reserved ++ ks).filter fun c =>
                    memb c seg.cols))).map coerceTimeRow).filter rowHasTime).filter
                      fun r => decide (st ≤ rowTime r)
              | none => if truthy tpc then
                  (((seg.rows.map (projRow ((reserved ++ ks).filter fun c =>
                    memb c seg.cols))).map coerceTimeRow).filter rowHasTime).filter
                      (fbTpPass (tpc.getD ""))
                else ((seg.rows.map (projRow ((reserved ++ ks).filter fun c =>
                    memb c seg.cols))).map coerceTimeRow).filter rowHasTime) := by
            cases e with
            | none => exact hx
            | some en => exact (List.mem_filter.mp hx).1
          have hx2 : x ∈ (if truthy tpc then
              (((seg.rows.map (projRow ((reserved ++ ks).filter fun c =>
                memb c seg.cols))).map coerceTimeRow).filter rowHasTime).filter
                  (fbTpPass (tpc.getD ""))
            else ((seg.rows.map (projRow ((reserved ++ ks).filter fun c =>
                memb c seg.cols))).map coerceTimeRow).filter rowHasTime) := by
            cases s with
            | none => exact hx3
            | some st => exact (List.mem_filter.mp hx3).1
          have hx1 : x ∈ ((seg.rows.map (projRow ((reserved ++ ks).filter fun c =>
              memb c seg.cols))).map coerceTimeRow).filter rowHasTime := by
            by_cases htr : truthy tpc = true
            · rw [if_pos htr] at hx2
              exact (List.mem_filter.mp hx2).1
            · rw [if_neg htr] at hx2
              exact hx2
          have hx0 := (List.mem_filter.mp hx1).1
          rcases List.mem_map.mp hx0 with ⟨y, hy, hye⟩
          rcases List.mem_map.mp hy with ⟨r, _, hre⟩
          rw [← hye] at hp
          rcases keys_of_mapAt hp with ⟨q, hq, hpq⟩
          rw [← hre] at hq
          rcases mem_projRow hq with ⟨hqw, _⟩
          rw [hpq]
          exact (List.mem_filter.mp hqw).2

/-- Concrete store for C2: one segment that lacks the requested KPI `"X"`. -/
def c2store : Store :=
  ⟨[("N", [⟨true, ["Time", "NE", "TP", "K"],
    [[("Time", .time 0), ("NE", .str "N"), ("TP", .str "P"), ("K", .int 1)]]⟩])]⟩

/-- C2, counterexample: with the accelerated engine available, requesting a
KPI absent from every located segment makes the engine's column binder fail,
and `query_data` raises instead of returning a table — refuting the claim
that an unknown KPI name never causes an error. -/
theorem query_data_unknown_kpi_errors :
    query_data true c2store (some "N") (some ["X"]) none none none 0 =
      .error .binderError := by
  decide

/-- C2 (amended): on the fallback path only, a requested KPI name absent
from every located segment is silently ignored: the result is identical to
the same query without that name, and no returned row binds the unknown
column.  (The accelerated path instead fails with a binder error.) -/
theorem query_data_fb_unknown_kpi_silent (st : Store) (n k : String)
    (ks : List String) (start end_ : Option Int) (tpc : Option String) (m : Int)
    (habs : ∀ seg ∈ glob_parquet_paths st n, memb k seg.cols = false)
    (hrem : ¬ removeName k ks = []) :
    query_data false st (some n) (some ks) start end_ tpc m =
      query_data false st (some n) (some (removeName k ks)) start end_ tpc m ∧
    ∀ rows, query_data false st (some n) (some ks) start end_ tpc m = .ok rows →
      ∀ r ∈ rows, alookup k r = none := by
  have hksne : ¬ ks = [] := by
    intro hnil
    exact hrem (by rw [hnil]; rfl)
  have hkeysne : ∀ x ∈ sortRows ((glob_parquet_paths st n).filterMap
      (perSegment ks start end_ tpc)).flatten, ∀ p ∈ x, ¬ p.1 = k := by
    intro x hx p hp hpk
    have hx1 := mem_sortRows.mp hx
    rcases List.mem_flatten.mp hx1 with ⟨fr, hfr, hxf⟩
    rcases List.mem_filterMap.mp hfr with ⟨seg, hseg, hps⟩
    have := perSegment_keys hps x hxf p hp
    rw [hpk, habs seg hseg] at this
    exact absurd this (by simp)
  constructor
  · simp only [query_data]
    rw [if_neg (fun hl => hksne (List.length_eq_zero.mp hl)),
      if_neg (fun hl => hrem (List.length_eq_zero.mp hl))]
    by_cases hp : (glob_parquet_paths st n).isEmpty = true
    · rw [if_pos hp, if_pos hp]
    · rw [if_neg hp, if_neg hp, if_neg (by simp), if_neg (by simp)]
      congr 1
      rw [fallbackQuery, fallbackQuery]
      have hframes : (glob_parquet_paths st n).filterMap
          (perSegment ks start end_ tpc) =
          (glob_parquet_paths st n).filterMap
            (perSegment (removeName k ks) start end_ tpc) :=
        filterMap_congr' fun seg hseg => perSegment_remove (habs seg hseg)
      rw [← hframes]
      by_cases hFe : ((glob_parquet_paths st n).filterMap
          (perSegment ks start end_ tpc)).isEmpty = true
      · rw [if_pos hFe, if_pos hFe]
      · rw [if_neg hFe, if_neg hFe]
        have hmap : (sortRows ((glob_parquet_paths st n).filterMap
            (perSegment ks start end_ tpc)).flatten).map (coerceKpisRow ks) =
            (sortRows ((glob_parquet_paths st n).filterMap
              (perSegment ks start end_ tpc)).flatten).map
                (coerceKpisRow (removeName k ks)) := by
          apply map_congr'
          intro x hx
          apply map_congr'
          intro p hp
          have hpk : ¬ p.1 = k := hkeysne x hx p hp
          rw [memb_removeName hpk ks]
        exact congrArg (fbTrim m) hmap
  · intro rows hrows r hr
    simp only [query_data] at hrows
    rw [if_neg (fun hl => hksne (List.length_eq_zero.mp hl))] at hrows
    by_cases hp : (glob_parquet_paths st n).isEmpty = true
    · rw [if_pos hp] at hrows
      have : rows = [] := (Except.ok.inj hrows).symm
      rw [this] at hr
      exact absurd hr (by simp)
    · rw [if_neg hp, if_neg (by simp)] at hrows
      have hrq : rows = fallbackQuery (glob_parquet_paths st n) ks start end_ tpc m :=
        (Except.ok.inj hrows).symm
      rw [hrq, fallbackQuery] at hr
      by_cases hFe : ((glob_parquet_paths st n).filterMap
          (perSegment ks start end_ tpc)).isEmpty = true
      · rw [if_pos hFe] at hr
        exact absurd hr (by simp)
      · rw [if_neg hFe] at hr
        have hr2 : r ∈ (sortRows ((glob_parquet_paths st n).filterMap
            (perSegment ks start end_ tpc)).flatten).map (coerceKpisRow ks) := by
          revert hr
          rw [fbTrim]
          by_cases hc : ((!(m = 0 : Bool)) && decide (m < ((((sortRows
              ((glob_parquet_paths st n).filterMap
                (perSegment ks start end_ tpc)).flatten).map
                (coerceKpisRow ks)).length : Int)))) = true
          · rw [if_pos hc, pdTail]
            intro hr
            by_cases hm0 : (0 : Int) ≤ m
            · rw [if_pos hm0] at hr
              exact List.drop_subset _ _ hr
            · rw [if_neg hm0] at hr
              exact List.drop_subset _ _ hr
          · rw [if_neg hc]
            exact id
        rcases List.mem_map.mp hr2 with ⟨x, hx, hxe⟩
        apply alookup_eq_none_of_keys
        intro p hp
        rw [← hxe] at hp
        rcases keys_of_coerceKpisRow hp with ⟨q, hq, hpq⟩
        rw [hpq]
        exact hkeysne x hx q hq

/-- Concrete store for C2's witness: the segment carries `K` but not the
also-requested `X`. -/
def c2wstore : Store :=
  ⟨[("N", [⟨true, ["Time", "NE", "TP", "K"],
    [[("Time", .time 0), ("NE", .str "N"), ("TP", .str "P"), ("K", .int 1)],
     [("Time", .time 5), ("NE", .str "N"), ("TP", .str "P"), ("K", .int 2)]]⟩])]⟩

/-- C2, witness: on the fallback path, requesting `["X", "K"]` over a store
whose segments lack `X` behaves exactly like requesting `["K"]`, and no
returned row binds `X`. -/
theorem query_data_fb_unknown_kpi_silent_witness :
    query_data false c2wstore (some "N") (some ["X", "K"]) none none none 0 =
      query_data false c2wstore (some "N") (some (removeName "X" ["X", "K"]))
        none none none 0 ∧
    ∀ rows, query_data false c2wstore (some "N") (some ["X", "K"]) none none none 0 =
        .ok rows → ∀ r ∈ rows, alookup "X" r = none :=
  query_data_fb_unknown_kpi_silent c2wstore "N" "X" ["X", "K"] none none none 0
    (by decide) (by decide)

/-- The same store with every unreadable (corrupt) segment file removed. -/
def readable_store (st : Store) : Store :=
  ⟨st.parts.map fun p => (p.1, p.2.filter (·.readable))⟩

theorem lookup_map_parts (f : List Segment → List Segment)
    (parts : List (String × List Segment)) (n : String) :
    (parts.map fun p => (p.1, f p.2)).lookup n = (parts.lookup n).map f := by
  induction parts with
  | nil => rfl
  | cons p t ih =>
    obtain ⟨a, segs⟩ := p
    rw [List.map_cons, List.lookup_cons, List.lookup_cons]
    by_cases h : (n == a) = true
    · rw [h]
      rfl
    · rw [Bool.eq_false_iff.mpr h]
      exact ih

theorem glob_readable_store (st : Store) (n : String) :
    glob_parquet_paths (readable_store st) n =
      (glob_parquet_paths st n).filter (·.readable) := by
  rw [glob_parquet_paths, glob_parquet_paths, readable_store]
  rw [lookup_map_parts (fun segs => segs.filter (·.readable)) st.parts n]
  cases st.parts.lookup n with
  | none => rfl
  | some segs => rfl

theorem perSegment_unreadable {ks : List String} {s e : Option Int}
    {tpc : Option String} {seg : Segment} (h : seg.readable = false) :
    perSegment ks s e tpc seg = none := by
  rw [perSegment, h]
  rfl

theorem filterMap_perSegment_readable (ks : List String) (s e : Option Int)
    (tpc : Option String) (segs : List Segment) :
    segs.filterMap (perSegment ks s e tpc) =
      (segs.filter (·.readable)).filterMap (perSegment ks s e tpc) := by
  induction segs with
  | nil => rfl
  | cons a t ih =>
    rw [List.filterMap_cons, List.filter_cons]
    cases hr : a.readable with
    | false =>
      rw [perSegment_unreadable hr, if_neg (by simp)]
      exact ih
    | true =>
      rw [if_pos rfl]
      rw [List.filterMap_cons]
      cases hps : perSegment ks s e tpc a with
      | none => exact ih
      | some fr => rw [ih]

/-- C10: on the fallback path, unreadable (corrupt) segment files are
silently skipped — the query returns exactly the result over the readable
segments alone — and the query never surfaces an error. -/
theorem query_data_fb_skips_unreadable (st : Store) (n : String)
    (ks : List String) (start end_ : Option Int) (tpc : Option String) (m : Int)
    (hks : ¬ ks = []) :
    query_data false st (some n) (some ks) start end_ tpc m =
      query_data false (readable_store st) (some n) (some ks) start end_ tpc m ∧
    ∃ rows, query_data false st (some n) (some ks) start end_ tpc m = .ok rows := by
  have hfb : ∀ segs : List Segment,
      fallbackQuery segs ks start end_ tpc m =
        fallbackQuery (segs.filter (·.readable)) ks start end_ tpc m := by
    intro segs
    rw [fallbackQuery, fallbackQuery, ← filterMap_perSegment_readable]
  have hfbnil : fallbackQuery ([] : List Segment) ks start end_ tpc m = [] := rfl
  have hkk : ¬ (ks.length = 0) := fun hl => hks (List.length_eq_zero.mp hl)
  constructor
  · simp only [query_data]
    rw [if_neg hkk, if_neg hkk, glob_readable_store]
    by_cases hp : (glob_parquet_paths st n).isEmpty = true
    · have hnil : glob_parquet_paths st n = [] := by
        cases hq : glob_parquet_paths st n with
        | nil => rfl
        | cons a t => rw [hq] at hp; exact absurd hp (by simp)
      rw [hnil]
      simp
    · rw [if_neg hp, if_neg (show ¬ ((false : Bool) = true) by simp)]
      by_cases hq : ((glob_parquet_paths st n).filter (·.readable)).isEmpty = true
      · have hnil : (glob_parquet_paths st n).filter (·.readable) = [] := by
          cases hqq : (glob_parquet_paths st n).filter (·.readable) with
          | nil => rfl
          | cons a t => rw [hqq] at hq; exact absurd hq (by simp)
        rw [if_pos hq, hfb (glob_parquet_paths st n), hnil, hfbnil]
      · rw [if_neg hq, if_neg (show ¬ ((false : Bool) = true) by simp),
          hfb (glob_parquet_paths st n)]
  · simp only [query_data]
    rw [if_neg hkk]
    by_cases hp : (glob_parquet_paths st n).isEmpty = true
    · rw [if_pos hp]
      exact ⟨[], rfl⟩
    · rw [if_neg hp, if_neg (show ¬ ((false : Bool) = true) by simp)]
      exact ⟨_, rfl⟩

/-- Concrete store for C10's witness: one readable and one unreadable
segment under the same element. -/
def c10store : Store :=
  ⟨[("N", [⟨true, ["Time", "NE", "TP", "K"],
    [[("Time", .time 1), ("NE", .str "N"), ("TP", .str "P"), ("K", .int 1)]]⟩,
    ⟨false, ["Time", "NE", "TP", "K"],
    [[("Time", .time 2), ("NE", .str "N"), ("TP", .str "P"), ("K", .int 2)]]⟩])]⟩

/-- C10, witness: over a store with a corrupt segment, the fallback path
succeeds and equals the query over the readable remainder. -/
theorem query_data_fb_skips_unreadable_witness :
    query_data false c10store (some "N") (some ["K"]) none none none 0 =
      query_data false (readable_store c10store) (some "N") (some ["K"]) none none none 0 ∧
    ∃ rows, query_data false c10store (some "N") (some ["K"]) none none none 0 =
      .ok rows :=
  query_data_fb_skips_unreadable c10store "N" ["K"] none none none 0 (by decide)

/-- Structure of any row found in a written group: the chunk had a time
column, the row's group key matches its group, and the row is the fully
processed image of some normalized source row whose cleaned time parsed. -/
theorem processChunk_row_shape {c0 : Chunk} {g : (String × String) × List RowT}
    {r : RowT} (hg : g ∈ processChunk c0) (hr : r ∈ g.2) :
    ∃ tc, findTimeCol (normHeader c0).cols = some tc ∧
      groupKey r = some g.1 ∧
      ∃ r0, r0 ∈ (normHeader c0).rows ∧
        hasParsedTime tc (parseTimeRow tc r0) = true ∧
        r = replaceRow (addDateRow tc (fixNERow (memb "NE" (normHeader c0).cols)
          (parseTimeRow tc r0))) := by
  rw [processChunk] at hg
  cases htc : findTimeCol (normHeader c0).cols with
  | none =>
    rw [htc] at hg
    exact absurd hg (by simp)
  | some tc =>
    rw [htc] at hg
    dsimp only at hg
    by_cases hE : (((normHeader c0).rows.map (parseTimeRow tc)).filter
        (hasParsedTime tc)).isEmpty = true
    · rw [if_pos hE] at hg
      exact absurd hg (by simp)
    · rw [if_neg hE] at hg
      rcases List.mem_map.mp hg with ⟨k, _, hge⟩
      refine ⟨tc, rfl, ?_, ?_⟩
      · have h2 := (List.mem_filter.mp (hge ▸ hr)).2
        have hkey := of_decide_eq_true h2
        rw [hkey, ← hge]
      · have h1 := (List.mem_filter.mp (hge ▸ hr)).1
        rcases List.mem_map.mp h1 with ⟨y4, hy4, he4⟩
        rcases List.mem_map.mp hy4 with ⟨y3, hy3, he3⟩
        rcases List.mem_map.mp hy3 with ⟨y2, hy2, he2⟩
        have hyf := List.mem_filter.mp hy2
        rcases List.mem_map.mp hyf.1 with ⟨r0, hr0, he0⟩
        refine ⟨r0, hr0, by rw [he0]; exact hyf.2, ?_⟩
        rw [← he4, ← he3, ← he2, he0]

/-- C9: at ingestion, the `'NS'`/`'NA'`/`''` tokens are replaced by a
missing value (after the `NE` column is fixed), and the `(NE, date)`
group-by drops rows with a missing key, so every row that reaches a written
segment carries a string `NE` that is none of the tokens — token-`NE` rows
are silently dropped. -/
theorem ingest_drops_missing_ne_tokens (c : Chunk)
    (g : (String × String) × List RowT) (r : RowT)
    (hg : g ∈ processChunk c) (hr : r ∈ g.2) :
    (replaceVal (.str "NS") = .na ∧ replaceVal (.str "NA") = .na ∧
      replaceVal (.str "") = .na) ∧
    ∃ s, alookup "NE" r = some (.str s) ∧ ¬ s = "NS" ∧ ¬ s = "NA" ∧ ¬ s = "" := by
  refine ⟨⟨by decide, by decide, by decide⟩, ?_⟩
  rcases processChunk_row_shape hg hr with ⟨tc, htc, hkey, r0, hr0, hpt, hre⟩
  have hNE : alookup "NE" r = some (.str g.1.1) := by
    rw [groupKey] at hkey
    cases hne : alookup "NE" r with
    | none => rw [hne] at hkey; exact absurd hkey (by simp)
    | some v =>
      rw [hne] at hkey
      cases v with
      | str nstr =>
        cases hdd : alookup "__date" r with
        | none => rw [hdd] at hkey; exact absurd hkey (by simp)
        | some d =>
          rw [hdd] at hkey
          cases d with
          | str dstr =>
            have := Option.some.inj hkey
            have h1 : nstr = g.1.1 := congrArg Prod.fst this
            rw [h1]
          | na => exact absurd hkey (by simp)
          | int n => exact absurd hkey (by simp)
          | time t => exact absurd hkey (by simp)
      | na => exact absurd hkey (by simp)
      | int n => exact absurd hkey (by simp)
      | time t => exact absurd hkey (by simp)
  have hpre : alookup "NE" r =
      (alookup "NE" (addDateRow tc (fixNERow (memb "NE" (normHeader c).cols)
        (parseTimeRow tc r0)))).map replaceVal := by
    rw [hre, replaceRow, alookup_mapVals]
  rw [hNE] at hpre
  cases hv : alookup "NE" (addDateRow tc (fixNERow (memb "NE" (normHeader c).cols)
      (parseTimeRow tc r0))) with
  | none =>
    rw [hv] at hpre
    exact absurd hpre (by simp)
  | some v =>
    rw [hv] at hpre
    have hrv : replaceVal v = .str g.1.1 := (Option.some.inj hpre).symm
    cases v with
    | str s =>
      rw [replaceVal] at hrv
      by_cases htok : s = "NS" ∨ s = "" ∨ s = "NA"
      · rw [if_pos htok] at hrv
        exact absurd hrv (by simp)
      · rw [if_neg htok] at hrv
        push_neg at htok
        have hs : s = g.1.1 := Val.str.inj hrv
        refine ⟨g.1.1, hNE, ?_, ?_, ?_⟩
        · rw [← hs]; exact htok.1
        · rw [← hs]; exact htok.2.2
        · rw [← hs]; exact htok.2.1
    | na => exact absurd hrv (by simp [replaceVal])
    | int n => exact absurd hrv (by simp [replaceVal])
    | time t => exact absurd hrv (by simp [replaceVal])

/-- Concrete chunk for C9's witness: one row whose `NE` cell is the literal
token `'NS'` and one row with a real element id. -/
def c9chunk : Chunk :=
  ⟨["Time", "NE", "K"],
   [[("Time", .str "2025-06-10 00:15:30"), ("NE", .str "NS"), ("K", .int 5)],
    [("Time", .str "2025-06-10 00:30:00"), ("NE", .str "NODE1"), ("K", .int 7)]]⟩

/-- The single row `c9chunk` writes: the `'NS'` row is gone. -/
def c9row : RowT :=
  [("Time", .time 72800814600), ("NE", .str "NODE1"), ("K", .int 7),
   ("__date", .str "2025-06-10")]

/-- C9, witness: processing `c9chunk` writes exactly one group holding only
the `NODE1` row, and the theorem applies to it. -/
theorem ingest_drops_missing_ne_tokens_witness :
    processChunk c9chunk = [(("NODE1", "2025-06-10"), [c9row])] ∧
    ((replaceVal (.str "NS") = .na ∧ replaceVal (.str "NA") = .na ∧
        replaceVal (.str "") = .na) ∧
      ∃ s, alookup "NE" c9row = some (.str s) ∧ ¬ s = "NS" ∧ ¬ s = "NA" ∧ ¬ s = "") :=
  ⟨by decide,
    ingest_drops_missing_ne_tokens c9chunk (("NODE1", "2025-06-10"), [c9row]) c9row
      (by decide) (by decide)⟩

/-- Concrete chunk without an `NE` column, for C4's counterexample. -/
def c4chunk : Chunk :=
  ⟨["Time", "K"], [[("Time", .str "2025-06-10 00:15:30"), ("K", .int 5)]]⟩

/-- C4, counterexample: a batch without an element-identifier column writes
its rows with the sentinel `'UNKNOWN_NE'` — not `"UNKNOWN"` as claimed. -/
theorem ingest_ne_sentinel_cex :
    ∃ g ∈ processChunk c4chunk, ∃ r ∈ g.2,
      alookup "NE" r = some (.str "UNKNOWN_NE") ∧
      ¬ alookup "NE" r = some (.str "UNKNOWN") := by
  decide

/-- C4 (amended): every row written to the store carries a string `NE`
value; when the ingested batch has no `NE` column, that value is exactly
the sentinel `'UNKNOWN_NE'`. -/
theorem ingest_ne_sentinel (c : Chunk) (g : (String × String) × List RowT)
    (r : RowT) (hg : g ∈ processChunk c) (hr : r ∈ g.2) :
    (∃ s, alookup "NE" r = some (.str s)) ∧
    (¬ "NE" ∈ (normHeader c).cols → alookup "NE" r = some (.str "UNKNOWN_NE")) := by
  rcases processChunk_row_shape hg hr with ⟨tc, htc, hkey, r0, hr0, hpt, hre⟩
  constructor
  · rw [groupKey] at hkey
    cases hne : alookup "NE" r with
    | none => rw [hne] at hkey; exact absurd hkey (by simp)
    | some v =>
      rw [hne] at hkey
      cases v with
      | str nstr => exact ⟨nstr, rfl⟩
      | na => exact absurd hkey (by simp)
      | int n => exact absurd hkey (by simp)
      | time t => exact absurd hkey (by simp)
  · intro hnomem
    have hne : memb "NE" (normHeader c).cols = false := by
      cases hm : memb "NE" (normHeader c).cols with
      | false => rfl
      | true => exact absurd (memb_iff.mp hm) hnomem
    rw [hre, hne, replaceRow, alookup_mapVals, fixNERow, if_neg (by simp),
      addDateRow, alookup_setCol_other (by decide), alookup_setCol_same]
    decide

/-- The single row `c4chunk` writes. -/
def c4row : RowT :=
  [("Time", .time 72800813730), ("K", .int 5), ("NE", .str "UNKNOWN_NE"),
   ("__date", .str "2025-06-10")]

/-- C4, witness: the amended sentinel statement applied to the written row
of a batch with no `NE` column. -/
theorem ingest_ne_sentinel_witness :
    (("UNKNOWN_NE", "2025-06-10"), [c4row]) ∈ processChunk c4chunk ∧
    ((∃ s, alookup "NE" c4row = some (.str s)) ∧
      (¬ "NE" ∈ (normHeader c4chunk).cols →
        alookup "NE" c4row = some (.str "UNKNOWN_NE"))) :=
  ⟨by decide,
    ingest_ne_sentinel c4chunk (("UNKNOWN_NE", "2025-06-10"), [c4row]) c4row
      (by decide) (by decide)⟩

/-- C5: every row in every written segment carries a parsed timestamp in the
discovered time column, and that timestamp is precisely the successful
parse of the cleaned time cell of some normalized source row — rows whose
cleaned time fails to parse never reach a segment. -/
theorem ingest_time_parsed (cs : List Chunk)
    (g : (String × String) × List RowT) (r : RowT)
    (hg : g ∈ ingest_folder cs) (hr : r ∈ g.2) :
    ∃ c, c ∈ cs ∧ ∃ tc, findTimeCol (normHeader c).cols = some tc ∧
      ∃ t : Int, alookup tc r = some (.time t) ∧
        ∃ r0, r0 ∈ (normHeader c).rows ∧
          toDatetimeVal (cleanTimeVal ((alookup tc r0).getD .na)) = .time t := by
  rcases List.mem_flatMap.mp hg with ⟨c, hc, hgc⟩
  rcases processChunk_row_shape hgc hr with ⟨tc, htc, hkey, r0, hr0, hpt, hre⟩
  refine ⟨c, hc, tc, htc, ?_⟩
  have htcp0 := List.find?_some (show (normHeader c).cols.find?
    (fun d => pyLower (pyStrip d) == "time") = some tc from htc)
  have htcp : (pyLower (pyStrip tc) == "time") = true := htcp0
  have htc1 : ¬ "NE" = tc := by
    intro h
    rw [← h] at htcp
    exact absurd htcp (by decide)
  have htc2 : ¬ "__date" = tc := by
    intro h
    rw [← h] at htcp
    exact absurd htcp (by decide)
  have h2 : alookup tc (parseTimeRow tc r0) =
      (alookup tc r0).map fun v => toDatetimeVal (cleanTimeVal v) := by
    rw [parseTimeRow, alookup_mapAt, if_pos rfl]
  rw [hasParsedTime] at hpt
  cases hl : alookup tc (parseTimeRow tc r0) with
  | none => rw [hl] at hpt; exact absurd hpt (by simp)
  | some w =>
    rw [hl] at hpt
    cases w with
    | time t =>
      rw [h2] at hl
      cases hv : alookup tc r0 with
      | none => rw [hv] at hl; exact absurd hl (by simp)
      | some v =>
        rw [hv] at hl
        have hvt : toDatetimeVal (cleanTimeVal v) = .time t := Option.some.inj hl
        refine ⟨t, ?_, r0, hr0, by rw [hv]; exact hvt⟩
        rw [hre, replaceRow, alookup_mapVals, addDateRow,
          alookup_setCol_other htc2, fixNERow]
        have hback : alookup tc (parseTimeRow tc r0) = some (.time t) := by
          rw [h2, hv, hl]
        by_cases hm : memb "NE" (normHeader c).cols = true
        · rw [if_pos hm, alookup_mapAt, if_neg htc1, hback]
          rfl
        · rw [if_neg hm, alookup_setCol_other htc1, hback]
          rfl
    | na => exact absurd hpt (by simp)
    | str s => exact absurd hpt (by simp)
    | int n => exact absurd hpt (by simp)

/-- Concrete one-chunk folder for C5's witness: one parseable row and one
unparseable row. -/
def c5chunks : List Chunk :=
  [⟨["Time", "NE", "K"],
    [[("Time", .str "2025-06-10 00:15:30"), ("NE", .str "NODE1"), ("K", .int 7)],
     [("Time", .str "not-a-time"), ("NE", .str "NODE1"), ("K", .int 8)]]⟩]

/-- The single written row of `c5chunks`. -/
def c5row : RowT :=
  [("Time", .time 72800813730), ("NE", .str "NODE1"), ("K", .int 7),
   ("__date", .str "2025-06-10")]

/-- C5, witness: the parseable row is written (with its parsed timestamp)
and the theorem applies to it; the unparseable row was dropped. -/
theorem ingest_time_parsed_witness :
    (("NODE1", "2025-06-10"), [c5row]) ∈ ingest_folder c5chunks ∧
    c5row ∈ [c5row] ∧
    (∃ c, c ∈ c5chunks ∧ ∃ tc, findTimeCol (normHeader c).cols = some tc ∧
      ∃ t : Int, alookup tc c5row = some (.time t) ∧
        ∃ r0, r0 ∈ (normHeader c).rows ∧
          toDatetimeVal (cleanTimeVal ((alookup tc r0).getD .na)) = .time t) :=
  ⟨by decide, by decide,
    ingest_time_parsed c5chunks (("NODE1", "2025-06-10"), [c5row]) c5row
      (by decide) (by decide)⟩

/-- Concrete chunk for C3: the spec's dotted-clock row and a garbage row. -/
def c3chunk : Chunk :=
  ⟨["Time", "NE"],
   [[("Time", .str "10.06.2025 00.15.30"), ("NE", .str "A")],
    [("Time", .str "not-a-time"), ("NE", .str "A")]]⟩

/-- C3, code bug, evaluated: `clean_time` leaves `"10.06.2025 00.15.30"`
unchanged (its rewrite pattern matches only SINGLE-digit dot triples, and
every component here has two digits), the unchanged dotted-clock string
does not parse, and the row is dropped — the chunk writes no segment at
all, contradicting the claimed retention.  The colon form that the cleaning
step was evidently meant to produce does parse. -/
theorem clean_time_dotted_clock_dropped :
    clean_time "10.06.2025 00.15.30" = "10.06.2025 00.15.30" ∧
    pdParseDatetime "10.06.2025 00.15.30" = none ∧
    clean_time "not-a-time" = "not-a-time" ∧
    pdParseDatetime "not-a-time" = none ∧
    processChunk c3chunk = [] ∧
    pdParseDatetime "10.06.2025 00:15:30" = some 72811527330 := by
  decide

end PM
